import Mathlib

/-!
Backward tail reader of `pkg/mfile/mfile.go`

A shallow embedding of `ExtractLines` and `TailN`, followed by the properties
of the two functions.

Modelling conventions

* A Go `[]byte`, a `bytes.Buffer` and a Go `string` are all sequences of bytes:
  `Bytes = List UInt8`.  The newline byte is `10`.
* A Go `[]string` is a `List Bytes`; the `nil` slice is `[]`.
* Go's `int` argument `numLines` is an `Int`; lengths, sizes and offsets are
  natural numbers (they are non-negative in the source and stay far below
  `2^63`).
* A function with several results returns them all, the error as an
  `Option Error` (`none` is Go's `nil`).
* The file system is a parameter: `os.Open` is a function from paths to a file
  handle or an error, a handle answers `Stat`, `Seek` and `Read`.  Every call
  made on it is recorded, in order, in the `ops` field of the result.
* The chunk size (`122` in the source) is a parameter of `TailNChunk`;
  `TailN` is `TailNChunk 122`.  With chunk size `0` the source loops forever
  on a non-empty file, so the reader's loop carries fuel and the result is an
  `Option`: `none` means that the loop did not finish.
-/

namespace Mfile

/-- Sequence of bytes: a Go byte slice, buffer or string. -/
abbrev Bytes := List UInt8

/-- The errors `TailN` can return. -/
inductive Error where
  /-- Go `errors.New("numLines must be greater than 0")`. -/
  | numLinesNotPositive
  /-- Go `errors.New("failed to read the expected number of bytes")`. -/
  | shortRead
  /-- Go `io.EOF`. -/
  | eof
  /-- Any other error of the operating system. -/
  | os (code : Nat)
  deriving DecidableEq, Repr

/-- One call on the file system. -/
inductive IOCall where
  | open (path : String)
  | stat
  | seek (offset : Nat)
  | read (len : Nat)
  | close
  deriving DecidableEq, Repr

/-- An open file: what `Stat`, `Seek(offset, 0)` and, at the offset last
sought, `Read` into a slice of `len` bytes answer. `read` returns the bytes
that were read (their number is Go's `n`) and the error. -/
structure FileHandle where
  stat : Except Error Nat
  seek : Nat → Option Error
  read : Nat → Nat → Bytes × Option Error

/-- Answer of `os.Open` for each path. -/
abbrev FileSystem := String → Except Error FileHandle

/-- A regular file with the given content on which every operation succeeds;
reading at or past the end of the file into a non-empty slice is `io.EOF`. -/
def regularFile (content : Bytes) : FileHandle where
  stat := .ok content.length
  seek := fun _ => none
  read := fun offset len =>
    let bs := (content.drop offset).take len
    if 0 < len ∧ bs = [] then ([], some Error.eof) else (bs, none)

/-- File system in which every path opens the same regular file. -/
def fileSystemOf (content : Bytes) : FileSystem :=
  fun _ => .ok (regularFile content)

/-- The scan `for i := len(data) - 1; i >= 0; i--` of `ExtractLines`. The
first explicit argument is `i + 1`: `0` means the loop is over. Returns
`data` and `newLines` as they are when the loop ends. -/
def extractLoop (numLines : Int) (skipBlankLines : Bool) (existingLen : Nat) :
    Nat → Bytes → List Bytes → Bytes × List Bytes
  | 0, data, newLines => (data, newLines)
  | i + 1, data, newLines =>
    if data[i]? = some 10 then
      let line := data.drop (i + 1)
      if skipBlankLines && line.length == 0 then
        extractLoop numLines skipBlankLines existingLen i (data.take i) newLines
      else
        let newLines := newLines ++ [line]
        if numLines ≤ ((existingLen + newLines.length : Nat) : Int) then
          (data, newLines)
        else
          extractLoop numLines skipBlankLines existingLen i (data.take i) newLines
    else
      extractLoop numLines skipBlankLines existingLen i data newLines

/-- Go `ExtractLines(buffer, numLines, skipBlankLines, existingLines)`: the
updated lines, the new buffer and the error (always `nil`). The in-place
reversal of `newLines` is `List.reverse`. -/
def ExtractLines (buffer : Bytes) (numLines : Int) (skipBlankLines : Bool)
    (existingLines : List Bytes) : List Bytes × Bytes × Option Error :=
  let r := extractLoop numLines skipBlankLines existingLines.length buffer.length buffer []
  (r.2.reverse ++ existingLines, r.1, none)

/-- Local variables of `TailN` that live across loop iterations, and the
calls made so far. -/
structure LoopState where
  buffer : Bytes
  lines : List Bytes
  remaining : Nat
  chunkSize : Nat
  ops : List IOCall
  deriving DecidableEq, Repr

/-- The loop `for remaining > 0 && len(lines) < numLines` of `TailN`. Returns
the state at the exit and the error of an early `return ret, err`; `none`
when the fuel runs out. -/
def tailLoop (file : FileHandle) (numLines : Int) (skipBlankLines : Bool) :
    Nat → LoopState → Option (LoopState × Option Error)
  | 0, _ => none
  | fuel + 1, s =>
    if 0 < s.remaining ∧ (s.lines.length : Int) < numLines then
      let chunkSize := if s.remaining < s.chunkSize then s.remaining else s.chunkSize
      let readOffset := s.remaining - chunkSize
      let ops := s.ops ++ [IOCall.seek readOffset]
      match file.seek readOffset with
      | some err => some ({ s with chunkSize := chunkSize, ops := ops }, some err)
      | none =>
        let ops := ops ++ [IOCall.read chunkSize]
        match file.read readOffset chunkSize with
        | (_, some err) => some ({ s with chunkSize := chunkSize, ops := ops }, some err)
        | (chunk, none) =>
          if chunk.length ≠ chunkSize then
            some ({ s with chunkSize := chunkSize, ops := ops }, some Error.shortRead)
          else
            let buffer := chunk ++ s.buffer
            let remaining := readOffset
            match ExtractLines buffer numLines skipBlankLines s.lines with
            | (lines, buffer, some err) =>
              some ({ buffer := buffer, lines := lines, remaining := remaining,
                      chunkSize := chunkSize, ops := ops }, some err)
            | (lines, buffer, none) =>
              let s' : LoopState :=
                { buffer := buffer, lines := lines, remaining := remaining,
                  chunkSize := chunkSize, ops := ops }
              if numLines ≤ (lines.length : Int) then
                some (s', none)
              else
                tailLoop file numLines skipBlankLines fuel s'
    else
      some (s, none)

/-- The statements of `TailN` after its loop: the content left in the buffer
at the start of the file becomes one more line, then the list is cut to its
last `numLines` entries. -/
def finishLines (numLines : Int) (skipBlankLines : Bool) (s : LoopState) : List Bytes :=
  let lines :=
    if s.remaining = 0 ∧ 0 < s.buffer.length ∧ (s.lines.length : Int) < numLines then
      let line := s.buffer
      if !(skipBlankLines && line.length == 0) then line :: s.lines else s.lines
    else s.lines
  if numLines < (lines.length : Int) then
    lines.drop (lines.length - numLines.toNat)
  else lines

/-- What a call of `TailN` returns, and the file system calls it made. -/
structure TailResult where
  ret : List Bytes
  err : Option Error
  ops : List IOCall
  deriving DecidableEq, Repr

/-- Go `TailN` with the initial chunk size as a parameter. -/
def TailNChunk (chunkSize : Nat) (fs : FileSystem) (filePath : String) (numLines : Int)
    (skipBlankLines : Bool) : Option TailResult :=
  if numLines ≤ 0 then
    some ⟨[], some Error.numLinesNotPositive, []⟩
  else
    match fs filePath with
    | .error err => some ⟨[], some err, [IOCall.open filePath]⟩
    | .ok file =>
      match file.stat with
      | .error err => some ⟨[], some err, [IOCall.open filePath, IOCall.stat, IOCall.close]⟩
      | .ok fileSize =>
        match tailLoop file numLines skipBlankLines (fileSize + 1)
            { buffer := [], lines := [], remaining := fileSize, chunkSize := chunkSize,
              ops := [IOCall.open filePath, IOCall.stat] } with
        | none => none
        | some (s, some err) => some ⟨[], some err, s.ops ++ [IOCall.close]⟩
        | some (s, none) =>
          some ⟨finishLines numLines skipBlankLines s, none, s.ops ++ [IOCall.close]⟩

/-- Go `TailN(filePath, numLines, skipBlankLines)`, chunk size 122. -/
def TailN (fs : FileSystem) (filePath : String) (numLines : Int) (skipBlankLines : Bool) :
    Option TailResult :=
  TailNChunk 122 fs filePath numLines skipBlankLines

/-! ## Reference definitions: the lines of a byte sequence -/

/-- True when the byte sequence has no newline byte. -/
def noNewline (bs : Bytes) : Prop := ∀ b ∈ bs, b ≠ 10

instance (bs : Bytes) : Decidable (noNewline bs) :=
  inferInstanceAs (Decidable (∀ b ∈ bs, b ≠ 10))

/-- The bytes before the first newline (all of them when there is none). -/
def firstSeg (bs : Bytes) : Bytes := bs.takeWhile (fun b => b != 10)

/-- For each newline byte, in order, the bytes strictly after it up to the next
newline or the end. -/
def tailSegs : Bytes → List Bytes
  | [] => []
  | b :: bs => if b = 10 then firstSeg bs :: tailSegs bs else tailSegs bs

/-- The newline-separated segments: `j` newline bytes give `j + 1` segments. -/
def segments (bs : Bytes) : List Bytes := firstSeg bs :: tailSegs bs

/-- Drops the empty entries when `skipBlankLines` is set. -/
def keepLines (skipBlankLines : Bool) (ls : List Bytes) : List Bytes :=
  ls.filter (fun l => !(skipBlankLines && l.length == 0))

/-- The candidate lines of a buffer: the segments that follow a newline, the
empty ones removed when `skipBlankLines` is set. -/
def candidates (skipBlankLines : Bool) (bs : Bytes) : List Bytes :=
  keepLines skipBlankLines (tailSegs bs)

/-- The lines of a whole file as the reader sees them: the bytes before the
first newline when there are any, then the candidates. -/
def allLines (skipBlankLines : Bool) (content : Bytes) : List Bytes :=
  (if firstSeg content = [] then [] else [firstSeg content]) ++ candidates skipBlankLines content

/-- The last `n` entries of a list (all of them when it is shorter). -/
def lastN {α : Type} (n : Nat) (l : List α) : List α := l.drop (l.length - n)

/-- The scan of `ExtractLines` as a recursion over the bytes still to visit,
last byte first (`rp`), with the bytes `r` already visited since the last cut. -/
def scanBack (numLines : Int) (skipBlankLines : Bool) (existingLen : Nat) :
    Bytes → Bytes → List Bytes → Bytes × List Bytes
  | [], r, newLines => (r, newLines)
  | b :: rp, r, newLines =>
    if b = 10 then
      if skipBlankLines && r.length == 0 then
        scanBack numLines skipBlankLines existingLen rp [] newLines
      else if numLines ≤ ((existingLen + (newLines ++ [r]).length : Nat) : Int) then
        (rp.reverse ++ 10 :: r, newLines ++ [r])
      else
        scanBack numLines skipBlankLines existingLen rp [] (newLines ++ [r])
    else
      scanBack numLines skipBlankLines existingLen rp (b :: r) newLines

/-- Invariant of the loop of `TailN` on a regular file, at the loop test. -/
structure LoopInv (content : Bytes) (numLines : Int) (skip : Bool) (s : LoopState) : Prop where
  remaining_le : s.remaining ≤ content.length
  buffer_eq : s.buffer = firstSeg (content.drop s.remaining)
  lines_eq : s.lines = candidates skip (content.drop s.remaining)
  lines_lt : (s.lines.length : Int) < numLines
  chunk_pos : 1 ≤ s.chunkSize

/-! ## Definitions used to state the claims -/

/-- File content made of the lines `ls`, each followed by a newline byte,
and then the bytes `fin` (an unterminated final line, or nothing). -/
def terminatedContent : List Bytes → Bytes → Bytes
  | [], fin => fin
  | l :: ls, fin => l ++ 10 :: terminatedContent ls fin

/-- The lines of `terminatedContent ls fin`: the terminated lines, then the
unterminated final line when there is one. -/
def fileLines (ls : List Bytes) (fin : Bytes) : List Bytes :=
  ls ++ (if fin = [] then [] else [fin])

/-- Removes the first entry of a list of lines when that entry is empty. -/
def dropEmptyHead : List Bytes → List Bytes
  | [] :: t => t
  | l => l

/-- The non-empty newline-separated segments of a content. -/
def nonEmptyLines (content : Bytes) : List Bytes :=
  (segments content).filter (fun l => decide (l ≠ []))

/-- The bytes that follow the last newline byte (the whole content when it
has no newline). -/
def afterLastNewline (content : Bytes) : Bytes :=
  (content.reverse.takeWhile (fun b => b != 10)).reverse

/-- The lines of a content when a newline ends a line: the newline-separated
segments, without the last one when nothing follows the last newline. -/
def terminatedLines (content : Bytes) : List Bytes :=
  if afterLastNewline content = [] then (segments content).dropLast else segments content

/-- The error with which the seek and the read of one loop iteration of
`TailN` end, for a chunk of `len` bytes at `offset`: the error of `Seek`, else
the error of `Read`, else the short-read error when fewer than `len` bytes
came back, else none. -/
def chunkOutcome (file : FileHandle) (offset len : Nat) : Option Error :=
  match file.seek offset with
  | some err => some err
  | none =>
    match file.read offset len with
    | (_, some err) => some err
    | (chunk, none) => if chunk.length ≠ len then some Error.shortRead else none

/-- The calls one loop iteration of `TailN` makes for a chunk of `len` bytes
at `offset`: the seek, and the read unless the seek failed. -/
def chunkOps (file : FileHandle) (offset len : Nat) : List IOCall :=
  match file.seek offset with
  | some _ => [IOCall.seek offset]
  | none => [IOCall.seek offset, IOCall.read len]

/-- The state of the loop of `TailN` after an iteration whose seek and read
succeeded: the chunk of `min chunkSize remaining` bytes that ends at
`remaining` is put in front of the buffer and the lines are extracted. -/
def afterChunk (file : FileHandle) (numLines : Int) (skipBlankLines : Bool) (s : LoopState) :
    LoopState :=
  let len := min s.chunkSize s.remaining
  let offset := s.remaining - len
  let r := ExtractLines ((file.read offset len).1 ++ s.buffer) numLines skipBlankLines s.lines
  { buffer := r.2.1, lines := r.1, remaining := offset, chunkSize := len,
    ops := s.ops ++ chunkOps file offset len }

/-- The values of `remaining` at the start of successive loop iterations,
from the value `rem` on: each one is positive and the next one is smaller by
`min c r`, the number of bytes read. -/
def IterChain (c : Nat) : Nat → List Nat → Prop
  | _, [] => True
  | rem, r :: rs => r = rem ∧ 0 < r ∧ IterChain c (r - min c r) rs

/-- The calls made by the loop iterations that start with the given values of
`remaining`: an iteration at `r` handles the `min c r` bytes that end at `r`. -/
def iterationOps (file : FileHandle) (c : Nat) : List Nat → List IOCall
  | [] => []
  | r :: rs => chunkOps file (r - min c r) (min c r) ++ iterationOps file c rs

/-- A regular file whose read at offset `bad` returns one byte less than
asked, without error. -/
def shortReadAt (content : Bytes) (bad : Nat) : FileHandle where
  stat := .ok content.length
  seek := fun _ => none
  read := fun offset len =>
    if offset = bad then (((content.drop offset).take len).dropLast, none)
    else (regularFile content).read offset len

/-! ## The scan of `ExtractLines` -/

theorem extractLoop_eq_scanBack (numLines : Int) (skip : Bool) (m : Nat) :
    ∀ (k : Nat) (data : Bytes) (nl : List Bytes), k ≤ data.length →
      extractLoop numLines skip m k data nl
        = scanBack numLines skip m (data.take k).reverse (data.drop k) nl := by
  intro k
  induction k with
  | zero => intro data nl _; simp [extractLoop, scanBack]
  | succ k ih =>
    intro data nl hk
    have hlt : k < data.length := hk
    have htake : (data.take (k + 1)).reverse = data[k] :: (data.take k).reverse := by
      rw [List.take_succ, List.getElem?_eq_getElem hlt]; simp
    have hdrop : data.drop k = data[k] :: data.drop (k + 1) := by
      simp
    have hlen : (data.take k).length = k := by simp; omega
    have ih1 := ih (data.take k) nl (by omega)
    have ih1' := ih (data.take k) (nl ++ [data.drop (k + 1)]) (by omega)
    have e1 : (data.take k).take k = data.take k := by simp
    have e2 : (data.take k).drop k = [] := by simp
    rw [e1, e2] at ih1 ih1'
    rw [htake]
    unfold extractLoop scanBack
    rw [List.getElem?_eq_getElem hlt]
    by_cases hb : data[k] = 10
    · simp only [hb, if_true]
      by_cases hs : (skip && (data.drop (k + 1)).length == 0) = true
      · simp only [hs, if_true]; exact ih1
      · simp only [hs]
        by_cases hc : numLines ≤ ((m + (nl ++ [data.drop (k + 1)]).length : Nat) : Int)
        · have hdata : data.take k ++ 10 :: data.drop (k + 1) = data := by
            rw [← hb, ← hdrop]; exact List.take_append_drop k data
          simp only [hc, if_true, List.reverse_reverse, hdata, Bool.false_eq_true, if_false]
        · simp only [hc, if_false, Bool.false_eq_true]; exact ih1'
    · have hb' : ¬ (some data[k] = some (10 : UInt8)) := by simpa using hb
      simp only [hb', hb, if_false]
      rw [ih data nl (by omega), hdrop]

/-! ## Segments of a byte sequence -/

theorem noNewline_nil : noNewline [] := by
  intro b hb; cases hb

theorem noNewline_cons {b : UInt8} {bs : Bytes} :
    noNewline (b :: bs) ↔ b ≠ 10 ∧ noNewline bs := by
  simp [noNewline]

theorem firstSeg_nil : firstSeg [] = [] := rfl

theorem firstSeg_cons_nl (bs : Bytes) : firstSeg (10 :: bs) = [] := by
  simp [firstSeg, List.takeWhile]

theorem firstSeg_cons_ne {b : UInt8} (hb : b ≠ 10) (bs : Bytes) :
    firstSeg (b :: bs) = b :: firstSeg bs := by
  simp [firstSeg, List.takeWhile_cons, hb]

theorem tailSegs_cons_nl (bs : Bytes) : tailSegs (10 :: bs) = firstSeg bs :: tailSegs bs := by
  simp [tailSegs]

theorem tailSegs_cons_ne {b : UInt8} (hb : b ≠ 10) (bs : Bytes) :
    tailSegs (b :: bs) = tailSegs bs := by
  simp [tailSegs, hb]

theorem firstSeg_noNewline (bs : Bytes) : noNewline (firstSeg bs) := by
  intro b hb
  have := List.mem_takeWhile_imp hb
  simpa using this

theorem firstSeg_of_noNewline {bs : Bytes} (h : noNewline bs) : firstSeg bs = bs := by
  induction bs with
  | nil => rfl
  | cons b bs ih =>
    obtain ⟨hb, hbs⟩ := noNewline_cons.1 h
    rw [firstSeg_cons_ne hb, ih hbs]

theorem tailSegs_of_noNewline {bs : Bytes} (h : noNewline bs) : tailSegs bs = [] := by
  induction bs with
  | nil => rfl
  | cons b bs ih =>
    obtain ⟨hb, hbs⟩ := noNewline_cons.1 h
    rw [tailSegs_cons_ne hb, ih hbs]

theorem firstSeg_append_nl (x y : Bytes) : firstSeg (x ++ 10 :: y) = firstSeg x := by
  induction x with
  | nil => simp [firstSeg_cons_nl, firstSeg_nil]
  | cons b x ih =>
    by_cases hb : b = 10
    · subst hb; simp [firstSeg_cons_nl]
    · simp only [List.cons_append, firstSeg_cons_ne hb, ih]

theorem tailSegs_append_nl (x y : Bytes) :
    tailSegs (x ++ 10 :: y) = tailSegs x ++ firstSeg y :: tailSegs y := by
  induction x with
  | nil => simp [tailSegs_cons_nl, tailSegs]
  | cons b x ih =>
    by_cases hb : b = 10
    · subst hb
      simp only [List.cons_append, tailSegs_cons_nl, firstSeg_append_nl, ih]
    · simp only [List.cons_append, tailSegs_cons_ne hb, ih]

theorem firstSeg_append_firstSeg (x y : Bytes) :
    firstSeg (x ++ firstSeg y) = firstSeg (x ++ y) := by
  induction x with
  | nil => simp [firstSeg_of_noNewline (firstSeg_noNewline y)]
  | cons b x ih =>
    by_cases hb : b = 10
    · subst hb; simp [firstSeg_cons_nl]
    · simp only [List.cons_append, firstSeg_cons_ne hb, ih]

theorem tailSegs_append (x y : Bytes) :
    tailSegs (x ++ y) = tailSegs (x ++ firstSeg y) ++ tailSegs y := by
  induction x with
  | nil => simp [tailSegs_of_noNewline (firstSeg_noNewline y)]
  | cons b x ih =>
    by_cases hb : b = 10
    · subst hb
      simp only [List.cons_append, tailSegs_cons_nl, firstSeg_append_firstSeg, ih]
    · simp only [List.cons_append, tailSegs_cons_ne hb, ih]

theorem keepLines_append (skip : Bool) (a b : List Bytes) :
    keepLines skip (a ++ b) = keepLines skip a ++ keepLines skip b := by
  simp [keepLines]

theorem keepLines_singleton (skip : Bool) (r : Bytes) :
    keepLines skip [r] = if (skip && r.length == 0) = true then [] else [r] := by
  unfold keepLines
  cases h : (skip && r.length == 0) <;> simp [List.filter, h]

theorem candidates_append (skip : Bool) (x y : Bytes) :
    candidates skip (x ++ y) = candidates skip (x ++ firstSeg y) ++ candidates skip y := by
  simp only [candidates, ← keepLines_append, ← tailSegs_append]

theorem candidates_of_noNewline (skip : Bool) {bs : Bytes} (h : noNewline bs) :
    candidates skip bs = [] := by
  simp [candidates, tailSegs_of_noNewline h, keepLines]

/-! ## What the scan collects -/

theorem scanBack_lines (numLines : Int) (skip : Bool) (m : Nat) :
    ∀ (rp r : Bytes) (nl : List Bytes), noNewline r → ((m + nl.length : Nat) : Int) < numLines →
      (scanBack numLines skip m rp r nl).2
        = nl ++ (candidates skip (rp.reverse ++ r)).reverse.take
            (numLines - ((m + nl.length : Nat) : Int)).toNat := by
  intro rp
  induction rp with
  | nil =>
    intro r nl hr _
    simp [scanBack, candidates_of_noNewline skip hr]
  | cons b rp ih =>
    intro r nl hr hlt
    by_cases hb : b = 10
    · subst hb
      have hseg : tailSegs (rp.reverse ++ 10 :: r) = tailSegs rp.reverse ++ [r] := by
        rw [tailSegs_append_nl, firstSeg_of_noNewline hr, tailSegs_of_noNewline hr]
      have hcand : candidates skip ((10 :: rp).reverse ++ r)
          = candidates skip rp.reverse ++ keepLines skip [r] := by
        simp only [List.reverse_cons, List.append_assoc, List.singleton_append, candidates,
          hseg, keepLines_append]
      rw [hcand]
      unfold scanBack
      simp only [if_true]
      by_cases hs : (skip && r.length == 0) = true
      · have hk : keepLines skip [r] = [] := by rw [keepLines_singleton, if_pos hs]
        simp only [hs, if_true, hk, List.append_nil]
        have := ih [] nl noNewline_nil hlt
        simpa using this
      · have hk : keepLines skip [r] = [r] := by rw [keepLines_singleton, if_neg hs]
        simp only [hs, hk, Bool.false_eq_true, if_false]
        by_cases hc : numLines ≤ ((m + (nl ++ [r]).length : Nat) : Int)
        · simp only [hc, if_true]
          have hneed : (numLines - ((m + nl.length : Nat) : Int)).toNat = 1 := by
            simp at hc; omega
          rw [hneed]; simp
        · simp only [hc, if_false]
          have hlt' : ((m + (nl ++ [r]).length : Nat) : Int) < numLines := by omega
          have := ih [] (nl ++ [r]) noNewline_nil hlt'
          rw [this]
          obtain ⟨j, hj⟩ : ∃ j, (numLines - ((m + nl.length : Nat) : Int)).toNat = j + 1 :=
            ⟨(numLines - ((m + nl.length : Nat) : Int)).toNat - 1, by omega⟩
          have hj' : (numLines - ((m + (nl ++ [r]).length : Nat) : Int)).toNat = j := by
            simp at hj ⊢; omega
          rw [hj, hj']; simp
    · have hr' : noNewline (b :: r) := noNewline_cons.2 ⟨hb, hr⟩
      have := ih (b :: r) nl hr' hlt
      unfold scanBack
      simp only [hb, if_false]
      rw [this]; simp

theorem scanBack_data (numLines : Int) (skip : Bool) (m : Nat) :
    ∀ (rp r : Bytes) (nl : List Bytes), noNewline r → ((m + nl.length : Nat) : Int) < numLines →
      (((candidates skip (rp.reverse ++ r)).length + (m + nl.length) : Nat) : Int) < numLines →
      (scanBack numLines skip m rp r nl).1 = firstSeg (rp.reverse ++ r) := by
  intro rp
  induction rp with
  | nil =>
    intro r nl hr _ _
    simp [scanBack, firstSeg_of_noNewline hr]
  | cons b rp ih =>
    intro r nl hr hlt hfew
    by_cases hb : b = 10
    · subst hb
      have hseg : tailSegs (rp.reverse ++ 10 :: r) = tailSegs rp.reverse ++ [r] := by
        rw [tailSegs_append_nl, firstSeg_of_noNewline hr, tailSegs_of_noNewline hr]
      have hcand : candidates skip ((10 :: rp).reverse ++ r)
          = candidates skip rp.reverse ++ keepLines skip [r] := by
        simp only [List.reverse_cons, List.append_assoc, List.singleton_append, candidates,
          hseg, keepLines_append]
      have hfirst : firstSeg ((10 :: rp).reverse ++ r) = firstSeg rp.reverse := by
        simp only [List.reverse_cons, List.append_assoc, List.singleton_append,
          firstSeg_append_nl]
      rw [hcand] at hfew
      rw [hfirst]
      unfold scanBack
      simp only [if_true]
      by_cases hs : (skip && r.length == 0) = true
      · have hk : keepLines skip [r] = [] := by rw [keepLines_singleton, if_pos hs]
        simp only [hs, if_true]
        rw [hk] at hfew
        have := ih [] nl noNewline_nil hlt (by simpa using hfew)
        simpa using this
      · have hk : keepLines skip [r] = [r] := by rw [keepLines_singleton, if_neg hs]
        rw [hk] at hfew
        simp only [hs, Bool.false_eq_true, if_false]
        have hc : ¬ numLines ≤ ((m + (nl ++ [r]).length : Nat) : Int) := by
          simp at hfew ⊢; omega
        simp only [hc, if_false]
        have hlt' : ((m + (nl ++ [r]).length : Nat) : Int) < numLines := by omega
        have := ih [] (nl ++ [r]) noNewline_nil hlt' (by simp at hfew ⊢; omega)
        simpa using this
    · have hr' : noNewline (b :: r) := noNewline_cons.2 ⟨hb, hr⟩
      have := ih (b :: r) nl hr' hlt (by simpa using hfew)
      unfold scanBack
      simp only [hb, if_false]
      rw [this]; simp

/-! ## The last entries of a list -/

theorem lastN_reverse_take {α : Type} (n : Nat) (l : List α) :
    (l.reverse.take n).reverse = lastN n l := by
  rw [List.take_reverse, List.reverse_reverse]; rfl

theorem lastN_of_length_le {α : Type} {n : Nat} {l : List α} (h : l.length ≤ n) :
    lastN n l = l := by
  unfold lastN
  rw [Nat.sub_eq_zero_of_le h, List.drop_zero]

theorem length_lastN {α : Type} (n : Nat) (l : List α) :
    (lastN n l).length = min n l.length := by
  unfold lastN
  rw [List.length_drop]; omega

theorem lastN_append_of_le {α : Type} {n : Nat} (a b : List α) (h : n ≤ b.length) :
    lastN n (a ++ b) = lastN n b := by
  unfold lastN
  have e : (a ++ b).length - n = a.length + (b.length - n) := by
    rw [List.length_append]; omega
  rw [e, List.drop_append]

theorem lastN_append_right {α : Type} (k : Nat) (a b : List α) :
    lastN (k + b.length) (a ++ b) = lastN k a ++ b := by
  unfold lastN
  have e : (a ++ b).length - (k + b.length) = a.length - k := by
    rw [List.length_append]; omega
  rw [e, List.drop_append_of_le_length (Nat.sub_le _ _)]

/-! ## `ExtractLines` in terms of the candidate lines -/

theorem ExtractLines_eq_scanBack (buffer : Bytes) (numLines : Int) (skip : Bool)
    (existing : List Bytes) :
    ExtractLines buffer numLines skip existing
      = (((scanBack numLines skip existing.length buffer.reverse [] []).2).reverse ++ existing,
          (scanBack numLines skip existing.length buffer.reverse [] []).1, none) := by
  unfold ExtractLines
  rw [extractLoop_eq_scanBack numLines skip existing.length buffer.length buffer [] (le_refl _)]
  simp

theorem ExtractLines_lines (buffer : Bytes) (numLines : Int) (skip : Bool)
    (existing : List Bytes) (h : (existing.length : Int) < numLines) :
    (ExtractLines buffer numLines skip existing).1
      = lastN (numLines - (existing.length : Int)).toNat (candidates skip buffer) ++ existing := by
  rw [ExtractLines_eq_scanBack]
  have := scanBack_lines numLines skip existing.length buffer.reverse [] [] noNewline_nil
    (by simpa using h)
  simp only [List.reverse_reverse, List.append_nil, List.length_nil, Nat.add_zero,
    List.nil_append] at this
  simp only [this, lastN_reverse_take]

theorem ExtractLines_buffer (buffer : Bytes) (numLines : Int) (skip : Bool)
    (existing : List Bytes)
    (h : (((candidates skip buffer).length + existing.length : Nat) : Int) < numLines) :
    (ExtractLines buffer numLines skip existing).2.1 = firstSeg buffer := by
  rw [ExtractLines_eq_scanBack]
  have := scanBack_data numLines skip existing.length buffer.reverse [] [] noNewline_nil
    (by simp; omega) (by simpa using h)
  simpa using this

theorem ExtractLines_err (buffer : Bytes) (numLines : Int) (skip : Bool)
    (existing : List Bytes) :
    (ExtractLines buffer numLines skip existing).2.2 = none := rfl

/-! ## The loop of `TailN` on a regular file -/

theorem regularFile_read (content : Bytes) (off k : Nat) (hk : 1 ≤ k)
    (h : off + k ≤ content.length) :
    (regularFile content).read off k = ((content.drop off).take k, none) := by
  have hlen : ((content.drop off).take k).length = k := by
    rw [List.length_take, List.length_drop]; omega
  have hne : (content.drop off).take k ≠ [] := by
    intro h0; rw [h0] at hlen; simp at hlen; omega
  unfold regularFile
  simp only
  rw [if_neg]
  rintro ⟨_, h0⟩
  exact hne h0

theorem finishLines_at_start (content : Bytes) (numLines : Int) (skip : Bool) (s : LoopState)
    (hinv : LoopInv content numLines skip s) (h0 : s.remaining = 0) :
    finishLines numLines skip s = lastN numLines.toNat (allLines skip content) := by
  have hb : s.buffer = firstSeg content := by
    have := hinv.buffer_eq; rwa [h0, List.drop_zero] at this
  have hl : s.lines = candidates skip content := by
    have := hinv.lines_eq; rwa [h0, List.drop_zero] at this
  have hlt := hinv.lines_lt
  unfold finishLines allLines
  by_cases hf : firstSeg content = []
  · have hlen : ¬ (0 < s.buffer.length) := by rw [hb, hf]; simp
    simp only [hlen, false_and, and_false, if_false, hf, if_true, List.nil_append]
    rw [← hl]
    have hnot : ¬ numLines < (s.lines.length : Int) := by omega
    rw [if_neg hnot, lastN_of_length_le (by omega)]
  · have hlen : 0 < s.buffer.length := by
      rw [hb]; exact List.length_pos.2 hf
    have hkeep : (!(skip && s.buffer.length == 0)) = true := by
      have : (s.buffer.length == 0) = false := by
        rw [beq_eq_false_iff_ne]; omega
      simp [this]
    simp only [h0, hlen, hlt, and_self, if_true, hkeep, hf, if_false, List.singleton_append]
    rw [← hl, ← hb]
    have hnot : ¬ numLines < ((s.buffer :: s.lines).length : Int) := by
      simp only [List.length_cons]; omega
    rw [if_neg hnot, lastN_of_length_le (by simp only [List.length_cons]; omega)]

theorem tailLoop_regular (content : Bytes) (numLines : Int) (skip : Bool) :
    ∀ (fuel : Nat) (s : LoopState), LoopInv content numLines skip s → s.remaining < fuel →
      ∃ s', tailLoop (regularFile content) numLines skip fuel s = some (s', none) ∧
        finishLines numLines skip s' = lastN numLines.toNat (allLines skip content) := by
  intro fuel
  induction fuel with
  | zero => intro s _ h; omega
  | succ fuel ih =>
    intro s hinv hfuel
    by_cases h0 : s.remaining = 0
    · refine ⟨s, ?_, finishLines_at_start content numLines skip s hinv h0⟩
      unfold tailLoop
      simp [h0]
    · have hpos : 0 < s.remaining := Nat.pos_of_ne_zero h0
      have hle := hinv.remaining_le
      have hc := hinv.chunk_pos
      have hlt := hinv.lines_lt
      -- the chunk that is read
      obtain ⟨k, hkdef⟩ : ∃ k, k = if s.remaining < s.chunkSize then s.remaining else s.chunkSize :=
        ⟨_, rfl⟩
      have hk1 : 1 ≤ k := by rw [hkdef]; split <;> omega
      have hkr : k ≤ s.remaining := by rw [hkdef]; split <;> omega
      obtain ⟨off, hoff⟩ : ∃ off, off = s.remaining - k := ⟨_, rfl⟩
      obtain ⟨chunk, hchunk⟩ : ∃ chunk, chunk = (content.drop off).take k := ⟨_, rfl⟩
      have hread : (regularFile content).read off k = (chunk, none) := by
        rw [hchunk]; exact regularFile_read content off k hk1 (by omega)
      have hchunklen : chunk.length = k := by
        rw [hchunk, List.length_take, List.length_drop]; omega
      have hsplit : content.drop off = chunk ++ content.drop s.remaining := by
        have e : content.drop s.remaining = (content.drop off).drop k := by
          rw [List.drop_drop]; congr 1; omega
        rw [hchunk, e, List.take_append_drop]
      -- what the extraction finds in the new buffer
      have hcand : candidates skip (content.drop off)
          = candidates skip (chunk ++ s.buffer) ++ s.lines := by
        rw [hsplit, candidates_append, ← hinv.buffer_eq, ← hinv.lines_eq]
      have hfirst : firstSeg (content.drop off) = firstSeg (chunk ++ s.buffer) := by
        rw [hsplit, hinv.buffer_eq, firstSeg_append_firstSeg]
      have hlines := ExtractLines_lines (chunk ++ s.buffer) numLines skip s.lines hlt
      have hEx : ExtractLines (chunk ++ s.buffer) numLines skip s.lines
          = ((ExtractLines (chunk ++ s.buffer) numLines skip s.lines).1,
             (ExtractLines (chunk ++ s.buffer) numLines skip s.lines).2.1, none) := rfl
      have hcond : 0 < s.remaining ∧ (s.lines.length : Int) < numLines := ⟨hpos, hlt⟩
      have hseek : (regularFile content).seek off = none := rfl
      have hunfold : tailLoop (regularFile content) numLines skip (fuel + 1) s
          = if numLines ≤ ((ExtractLines (chunk ++ s.buffer) numLines skip s.lines).1.length : Int)
            then some ({ buffer := (ExtractLines (chunk ++ s.buffer) numLines skip s.lines).2.1,
                         lines := (ExtractLines (chunk ++ s.buffer) numLines skip s.lines).1,
                         remaining := off, chunkSize := k,
                         ops := s.ops ++ [IOCall.seek off] ++ [IOCall.read k] }, none)
            else tailLoop (regularFile content) numLines skip fuel
                  { buffer := (ExtractLines (chunk ++ s.buffer) numLines skip s.lines).2.1,
                    lines := (ExtractLines (chunk ++ s.buffer) numLines skip s.lines).1,
                    remaining := off, chunkSize := k,
                    ops := s.ops ++ [IOCall.seek off] ++ [IOCall.read k] } := by
        conv_lhs => unfold tailLoop
        simp only [hcond, and_self, if_true, ← hkdef, ← hoff, hseek, hread, hchunklen,
          ne_eq, not_true_eq_false, if_false]
        rw [hEx]
      rw [hunfold]
      by_cases hfew : (((candidates skip (chunk ++ s.buffer)).length + s.lines.length : Nat) : Int)
          < numLines
      · -- every candidate is taken and the loop goes on
        have hbuf := ExtractLines_buffer (chunk ++ s.buffer) numLines skip s.lines hfew
        have hall : (ExtractLines (chunk ++ s.buffer) numLines skip s.lines).1
            = candidates skip (chunk ++ s.buffer) ++ s.lines := by
          rw [hlines, lastN_of_length_le (by omega)]
        have hnb : ¬ numLines
            ≤ ((ExtractLines (chunk ++ s.buffer) numLines skip s.lines).1.length : Int) := by
          rw [hall, List.length_append]; omega
        rw [if_neg hnb]
        apply ih
        · refine ⟨?_, ?_, ?_, ?_, ?_⟩
          · show off ≤ content.length
            omega
          · show (ExtractLines (chunk ++ s.buffer) numLines skip s.lines).2.1
              = firstSeg (content.drop off)
            rw [hbuf, hfirst]
          · show (ExtractLines (chunk ++ s.buffer) numLines skip s.lines).1
              = candidates skip (content.drop off)
            rw [hall, hcand]
          · show (((ExtractLines (chunk ++ s.buffer) numLines skip s.lines).1.length : Nat) : Int)
              < numLines
            omega
          · exact hk1
        · show off < fuel
          omega
      · -- the requested count is reached
        obtain ⟨need, hneed⟩ : ∃ need, need = (numLines - (s.lines.length : Int)).toNat :=
          ⟨_, rfl⟩
        have hneedle : need ≤ (candidates skip (chunk ++ s.buffer)).length := by
          push_cast at hfew; omega
        have hn : numLines.toNat = need + s.lines.length := by omega
        have hlen : (ExtractLines (chunk ++ s.buffer) numLines skip s.lines).1.length
            = need + s.lines.length := by
          rw [hlines, ← hneed, List.length_append, length_lastN]; omega
        have hb : numLines
            ≤ ((ExtractLines (chunk ++ s.buffer) numLines skip s.lines).1.length : Int) := by
          rw [hlen]; omega
        rw [if_pos hb]
        refine ⟨_, rfl, ?_⟩
        unfold finishLines
        have hnlt : ¬ (((ExtractLines (chunk ++ s.buffer) numLines skip s.lines).1.length : Nat)
            : Int) < numLines := by omega
        simp only [hnlt, and_false, if_false]
        have hngt : ¬ numLines
            < (((ExtractLines (chunk ++ s.buffer) numLines skip s.lines).1.length : Nat) : Int) := by
          rw [hlen]; omega
        rw [if_neg hngt, hlines, ← hneed]
        have hcontent : candidates skip content
            = candidates skip (content.take off ++ firstSeg (content.drop off))
              ++ (candidates skip (chunk ++ s.buffer) ++ s.lines) := by
          conv_lhs => rw [← List.take_append_drop off content]
          rw [candidates_append, hcand]
        unfold allLines
        rw [hcontent, hn, ← List.append_assoc, ← List.append_assoc, lastN_append_right,
          lastN_append_of_le _ _ hneedle]

/-! ## `TailN` on a regular file -/

theorem regularFile_stat (content : Bytes) :
    (regularFile content).stat = .ok content.length := rfl

theorem TailNChunk_regular (c : Nat) (hc : 1 ≤ c) (content : Bytes) (path : String)
    (numLines : Int) (hn : 1 ≤ numLines) (skip : Bool) :
    ∃ ops, TailNChunk c (fileSystemOf content) path numLines skip
      = some ⟨lastN numLines.toNat (allLines skip content), none, ops⟩ := by
  have hinv : LoopInv content numLines skip
      { buffer := [], lines := [], remaining := content.length, chunkSize := c,
        ops := [IOCall.open path, IOCall.stat] } :=
    ⟨le_refl _, by simp [firstSeg], by simp [candidates, tailSegs, keepLines],
      by simp only [List.length_nil]; omega, hc⟩
  obtain ⟨s', hs', hfin⟩ :=
    tailLoop_regular content numLines skip (content.length + 1) _ hinv (Nat.lt_succ_self _)
  refine ⟨s'.ops ++ [IOCall.close], ?_⟩
  unfold TailNChunk
  rw [if_neg (by omega)]
  simp only [fileSystemOf, regularFile_stat, hs', hfin]

theorem TailNChunk_size_zero (c : Nat) (fs : FileSystem) (path : String) (file : FileHandle)
    (hopen : fs path = .ok file) (hstat : file.stat = .ok 0) (numLines : Int)
    (hn : 1 ≤ numLines) (skip : Bool) :
    TailNChunk c fs path numLines skip
      = some ⟨[], none, [IOCall.open path, IOCall.stat, IOCall.close]⟩ := by
  unfold TailNChunk
  rw [if_neg (by omega)]
  simp only [hopen, hstat]
  have hloop : tailLoop file numLines skip (0 + 1)
      { buffer := [], lines := [], remaining := 0, chunkSize := c,
        ops := [IOCall.open path, IOCall.stat] }
      = some ({ buffer := [], lines := [], remaining := 0, chunkSize := c,
                ops := [IOCall.open path, IOCall.stat] }, none) := by
    unfold tailLoop; simp
  rw [hloop]
  simp [finishLines]

/-! ## Claims -/

theorem TailN_regular (content : Bytes) (path : String)
    (numLines : Int) (hn : 1 ≤ numLines) (skip : Bool) :
    ∃ ops, TailN (fileSystemOf content) path numLines skip
      = some ⟨lastN numLines.toNat (allLines skip content), none, ops⟩ :=
  TailNChunk_regular 122 (by decide) content path numLines hn skip

theorem lastN_min {α : Type} (n : Nat) (l : List α) : lastN (min n l.length) l = lastN n l := by
  unfold lastN
  congr 1
  omega

theorem allLines_false (content : Bytes) :
    allLines false content = dropEmptyHead (segments content) := by
  have hk : candidates false content = tailSegs content := by
    simp [candidates, keepLines]
  unfold allLines segments
  rw [hk]
  by_cases hf : firstSeg content = []
  · rw [if_pos hf, hf]; rfl
  · rw [if_neg hf]
    cases h : firstSeg content with
    | nil => exact absurd h hf
    | cons b bs => rfl

theorem allLines_true (content : Bytes) : allLines true content = nonEmptyLines content := by
  have hk : candidates true content = (tailSegs content).filter (fun l => decide (l ≠ [])) := by
    unfold candidates keepLines
    congr 1
    funext l
    cases l <;> simp
  unfold allLines nonEmptyLines segments
  rw [hk]
  by_cases hf : firstSeg content = []
  · rw [if_pos hf, hf]; simp [List.filter]
  · rw [if_neg hf]; simp [List.filter, hf]

theorem segments_cons_line (l rest : Bytes) (hl : noNewline l) :
    segments (l ++ 10 :: rest) = l :: segments rest := by
  unfold segments
  rw [firstSeg_append_nl, firstSeg_of_noNewline hl, tailSegs_append_nl,
    tailSegs_of_noNewline hl, List.nil_append]

theorem segments_terminatedContent (ls : List Bytes) (fin : Bytes)
    (hls : ∀ l ∈ ls, noNewline l) (hfin : noNewline fin) :
    segments (terminatedContent ls fin) = ls ++ [fin] := by
  induction ls with
  | nil =>
    simp [terminatedContent, segments, firstSeg_of_noNewline hfin, tailSegs_of_noNewline hfin]
  | cons l ls ih =>
    have hl : noNewline l := hls l (List.mem_cons_self _ _)
    have hrest : ∀ x ∈ ls, noNewline x := fun x hx => hls x (List.mem_cons_of_mem _ hx)
    simp only [terminatedContent, segments_cons_line _ _ hl, ih hrest, List.cons_append]

/-- C1, as the code behaves: for a content made of `k ≥ 0` newline-terminated
lines `ls` followed by the (possibly empty) bytes `fin` after the last newline,
and `numLines ≥ 1`, `TailN(path, numLines, false)` succeeds and returns the last
`min(numLines, len L)` entries of `L`, in file order, where `L` is `ls` followed
by `fin`, without its first entry when that entry is empty. -/
theorem TailN_terminated_lines (ls : List Bytes) (fin : Bytes) (path : String) (numLines : Int)
    (hls : ∀ l ∈ ls, noNewline l) (hfin : noNewline fin) (hn : 1 ≤ numLines) :
    ∃ ops, TailN (fileSystemOf (terminatedContent ls fin)) path numLines false
      = some ⟨lastN (min numLines.toNat (dropEmptyHead (ls ++ [fin])).length)
                (dropEmptyHead (ls ++ [fin])), none, ops⟩ := by
  obtain ⟨ops, h⟩ := TailN_regular (terminatedContent ls fin) path numLines hn false
  refine ⟨ops, ?_⟩
  rw [h, allLines_false, segments_terminatedContent ls fin hls hfin, lastN_min]

/-- Witness of C1 as amended: content `"a\nb\nc\n"` with `numLines = 2`
returns `["c", ""]`. -/
theorem TailN_terminated_lines_witness :
    (∀ l ∈ [[97], [98], [99]], noNewline l) ∧ noNewline [] ∧ (1 : Int) ≤ 2 ∧
    ∃ ops, TailN (fileSystemOf [97, 10, 98, 10, 99, 10]) "f" 2 false
      = some ⟨[[99], []], none, ops⟩ :=
  ⟨by decide, by decide, by decide,
    TailN_terminated_lines [[97], [98], [99]] [] "f" 2 (by decide) (by decide) (by decide)⟩

/-- C1 fails as stated: on `"a\nb\nc\n"` with `numLines = 2` the result is
`["c", ""]`, not the last two lines `["b", "c"]`; on `"\nx"` with
`numLines = 2` the result is `["x"]`, not the two lines `["", "x"]`. -/
theorem TailN_terminated_lines_counterexample :
    terminatedContent [[97], [98], [99]] [] = [97, 10, 98, 10, 99, 10] ∧
    (TailN (fileSystemOf [97, 10, 98, 10, 99, 10]) "f" 2 false).map TailResult.ret
      = some [[99], []] ∧
    lastN (min 2 (fileLines [[97], [98], [99]] []).length) (fileLines [[97], [98], [99]] [])
      = [[98], [99]] ∧
    (TailN (fileSystemOf (terminatedContent [[97], [98], [99]] [])) "f" 2 false).map
        TailResult.ret
      ≠ some (lastN (min 2 (fileLines [[97], [98], [99]] []).length)
          (fileLines [[97], [98], [99]] [])) ∧
    terminatedContent [[]] [120] = [10, 120] ∧
    (TailN (fileSystemOf [10, 120]) "f" 2 false).map TailResult.ret = some [[120]] ∧
    lastN (min 2 (fileLines [[]] [120]).length) (fileLines [[]] [120]) = [[], [120]] := by
  decide

/-- C2: for every content and `numLines ≥ 1`, `TailN(path, numLines, true)`
succeeds and returns the last `min(numLines, m)` non-empty newline-separated
segments of the content, in file order, `m` being their number. -/
theorem TailN_skip_blank_lines (content : Bytes) (path : String) (numLines : Int)
    (hn : 1 ≤ numLines) :
    ∃ ops, TailN (fileSystemOf content) path numLines true
      = some ⟨lastN (min numLines.toNat (nonEmptyLines content).length) (nonEmptyLines content),
              none, ops⟩ := by
  obtain ⟨ops, h⟩ := TailN_regular content path numLines hn true
  refine ⟨ops, ?_⟩
  rw [h, allLines_true, lastN_min]

/-- Witness of C2: content `"a\n\nb\n"` with `numLines = 2` returns
`["a", "b"]`. -/
theorem TailN_skip_blank_lines_witness :
    (1 : Int) ≤ 2 ∧
    ∃ ops, TailN (fileSystemOf [97, 10, 10, 98, 10]) "f" 2 true
      = some ⟨[[97], [98]], none, ops⟩ :=
  ⟨by decide, TailN_skip_blank_lines [97, 10, 10, 98, 10] "f" 2 (by decide)⟩

theorem TailNChunk_empty (c : Nat) (path : String) (numLines : Int) (hn : 1 ≤ numLines)
    (skip : Bool) :
    TailNChunk c (fileSystemOf []) path numLines skip
      = some ⟨[], none, [IOCall.open path, IOCall.stat, IOCall.close]⟩ :=
  TailNChunk_size_zero c (fileSystemOf []) path (regularFile []) rfl rfl numLines hn skip

theorem mem_lastN {α : Type} {n : Nat} {l : List α} {x : α} (h : x ∈ lastN n l) : x ∈ l :=
  List.mem_of_mem_drop h

theorem lastN_snoc {α : Type} {n : Nat} (hn : 1 ≤ n) (l : List α) (a : α) :
    lastN n (l ++ [a]) = lastN (n - 1) l ++ [a] := by
  have := lastN_append_right (n - 1) l [a]
  rw [List.length_singleton, Nat.sub_add_cancel hn] at this
  exact this

theorem mem_segments_of_mem_allLines {skip : Bool} {content l : Bytes}
    (h : l ∈ allLines skip content) : l ∈ segments content := by
  unfold allLines at h
  unfold segments
  rcases List.mem_append.1 h with h1 | h2
  · by_cases hf : firstSeg content = []
    · rw [if_pos hf] at h1; cases h1
    · rw [if_neg hf] at h1
      rw [List.mem_singleton.1 h1]
      exact List.mem_cons_self _ _
  · exact List.mem_cons_of_mem _ (List.mem_of_mem_filter h2)

theorem newline_decomposition (content : Bytes) :
    noNewline content ∨ ∃ pre line, content = pre ++ 10 :: line ∧ noNewline line := by
  induction content with
  | nil => exact Or.inl noNewline_nil
  | cons b t ih =>
    rcases ih with h | ⟨pre, line, hc, hl⟩
    · by_cases hb : b = 10
      · exact Or.inr ⟨[], t, by simp [hb], h⟩
      · exact Or.inl (noNewline_cons.2 ⟨hb, h⟩)
    · exact Or.inr ⟨b :: pre, line, by simp [hc], hl⟩

theorem allLines_of_noNewline (skip : Bool) {content : Bytes} (h : noNewline content)
    (hne : content ≠ []) : allLines skip content = [content] := by
  unfold allLines
  rw [firstSeg_of_noNewline h, if_neg hne, candidates_of_noNewline skip h, List.append_nil]

theorem allLines_append_line (skip : Bool) (pre line : Bytes) (hl : noNewline line)
    (hne : line ≠ []) :
    ∃ front, allLines skip (pre ++ 10 :: line) = front ++ [line] := by
  have hk : keepLines skip [line] = [line] := by
    rw [keepLines_singleton, if_neg]
    have : line.length ≠ 0 := fun h0 => hne (List.length_eq_zero.1 h0)
    simp [this]
  refine ⟨(if firstSeg (pre ++ 10 :: line) = [] then [] else [firstSeg (pre ++ 10 :: line)])
    ++ keepLines skip (tailSegs pre), ?_⟩
  unfold allLines candidates
  rw [tailSegs_append_nl, firstSeg_of_noNewline hl, tailSegs_of_noNewline hl,
    keepLines_append, hk, List.append_assoc]

theorem takeWhile_append_stop {α : Type} (p : α → Bool) (l r : List α) (a : α)
    (hl : ∀ x ∈ l, p x = true) (ha : p a = false) :
    (l ++ a :: r).takeWhile p = l := by
  induction l with
  | nil => simp [List.takeWhile_cons, ha]
  | cons x l ih =>
    have hx : p x = true := hl x (List.mem_cons_self _ _)
    have hrest : ∀ y ∈ l, p y = true := fun y hy => hl y (List.mem_cons_of_mem _ hy)
    simp [List.takeWhile_cons, hx, ih hrest]

theorem afterLastNewline_of_noNewline {content : Bytes} (h : noNewline content) :
    afterLastNewline content = content := by
  unfold afterLastNewline
  have : content.reverse.takeWhile (fun b => b != 10) = content.reverse := by
    rw [List.takeWhile_eq_self_iff]
    intro b hb
    have := h b (List.mem_reverse.1 hb)
    simpa using this
  rw [this, List.reverse_reverse]

theorem afterLastNewline_append_line (pre line : Bytes) (hl : noNewline line) :
    afterLastNewline (pre ++ 10 :: line) = line := by
  unfold afterLastNewline
  have hrev : (pre ++ 10 :: line).reverse = line.reverse ++ 10 :: pre.reverse := by simp
  rw [hrev, takeWhile_append_stop _ _ _ _ _ (by simp), List.reverse_reverse]
  intro b hb
  have := hl b (List.mem_reverse.1 hb)
  simpa using this

theorem segments_getLast (content : Bytes) :
    (segments content).getLast? = some (afterLastNewline content) := by
  rcases newline_decomposition content with h | ⟨pre, line, hc, hl⟩
  · simp [segments, firstSeg_of_noNewline h, tailSegs_of_noNewline h,
      afterLastNewline_of_noNewline h]
  · subst hc
    rw [afterLastNewline_append_line pre line hl]
    unfold segments
    rw [tailSegs_append_nl, firstSeg_of_noNewline hl, tailSegs_of_noNewline hl]
    have e : firstSeg (pre ++ 10 :: line) :: (tailSegs pre ++ [line])
        = (firstSeg (pre ++ 10 :: line) :: tailSegs pre) ++ [line] := rfl
    rw [e, List.getLast?_append]
    rfl

theorem segments_eq_terminatedLines (content : Bytes) :
    segments content
      = terminatedLines content ++ (if afterLastNewline content = [] then [[]] else []) := by
  unfold terminatedLines
  by_cases h : afterLastNewline content = []
  · rw [if_pos h, if_pos h]
    have hlast := segments_getLast content
    rw [h] at hlast
    have hne : segments content ≠ [] := by simp [segments]
    have := List.dropLast_append_getLast hne
    rw [List.getLast?_eq_getLast _ hne] at hlast
    rw [← Option.some.inj hlast]
    exact this.symm
  · rw [if_neg h, if_neg h, List.append_nil]

/-- C3: for every chunk size `c ≥ 1`, content, `numLines ≥ 1` and
`skipBlankLines`, the chunked reader succeeds and returns the same lines as the
reader whose chunk is the whole file. Every returned entry is a whole
newline-separated segment of the content, and a non-empty final line is
returned whole as the last entry, whatever its length. -/
theorem TailNChunk_chunk_independent (c : Nat) (hc : 1 ≤ c) (content : Bytes) (path : String)
    (numLines : Int) (hn : 1 ≤ numLines) (skip : Bool) :
    ∃ ret ops ops',
      TailNChunk c (fileSystemOf content) path numLines skip = some ⟨ret, none, ops⟩ ∧
      TailNChunk content.length (fileSystemOf content) path numLines skip
        = some ⟨ret, none, ops'⟩ ∧
      (∀ l ∈ ret, l ∈ segments content) ∧
      (noNewline content → content ≠ [] → ret = [content]) ∧
      (∀ pre line, content = pre ++ 10 :: line → noNewline line → line ≠ [] →
        ret.getLast? = some line) := by
  obtain ⟨ops, h⟩ := TailNChunk_regular c hc content path numLines hn skip
  have hwhole : ∃ ops', TailNChunk content.length (fileSystemOf content) path numLines skip
      = some ⟨lastN numLines.toNat (allLines skip content), none, ops'⟩ := by
    by_cases he : content = []
    · subst he
      refine ⟨[IOCall.open path, IOCall.stat, IOCall.close], ?_⟩
      rw [TailNChunk_empty _ path numLines hn skip]
      simp [allLines, firstSeg, candidates, tailSegs, keepLines, lastN]
    · exact TailNChunk_regular content.length
        (Nat.succ_le_of_lt (List.length_pos.2 he)) content path numLines hn skip
  obtain ⟨ops', h'⟩ := hwhole
  have h1 : 1 ≤ numLines.toNat := by omega
  refine ⟨_, ops, ops', h, h', ?_, ?_, ?_⟩
  · intro l hl
    exact mem_segments_of_mem_allLines (mem_lastN hl)
  · intro hno hne
    rw [allLines_of_noNewline skip hno hne]
    exact lastN_of_length_le (by simpa using h1)
  · intro pre line hcont hl hne
    obtain ⟨front, hfront⟩ := allLines_append_line skip pre line hl hne
    rw [hcont, hfront, lastN_snoc h1, List.getLast?_append]
    rfl

/-- Witness of C3: with chunk size `2`, the content `"ab\nhello"` and
`numLines = 1`, the five-byte line `"hello"` is returned whole. -/
theorem TailNChunk_chunk_independent_witness :
    (1 ≤ 2) ∧ ((1 : Int) ≤ 1) ∧
    ∃ ret ops ops',
      TailNChunk 2 (fileSystemOf [97, 98, 10, 104, 101, 108, 108, 111]) "f" 1 false
        = some ⟨ret, none, ops⟩ ∧
      TailNChunk 8 (fileSystemOf [97, 98, 10, 104, 101, 108, 108, 111]) "f" 1 false
        = some ⟨ret, none, ops'⟩ ∧
      ret = [[104, 101, 108, 108, 111]] := by
  obtain ⟨ret, ops, ops', h1, h2, _, _, h5⟩ :=
    TailNChunk_chunk_independent 2 (by decide) [97, 98, 10, 104, 101, 108, 108, 111] "f" 1
      (by decide) false
  have hret : ret = [[104, 101, 108, 108, 111]] := by
    have e : TailNChunk 2 (fileSystemOf [97, 98, 10, 104, 101, 108, 108, 111]) "f" 1 false
        = some ⟨[[104, 101, 108, 108, 111]], none,
            [IOCall.open "f", IOCall.stat, IOCall.seek 6, IOCall.read 2, IOCall.seek 4,
              IOCall.read 2, IOCall.seek 2, IOCall.read 2, IOCall.close]⟩ := by decide
    rw [e] at h1
    injection h1 with h1
    injection h1 with h1
    exact h1.symm
  exact ⟨by decide, by decide, ret, ops, ops', h1, h2, hret⟩

/-- C4: for every content, `numLines ≥ 1` and `skipBlankLines`, `TailN`
succeeds and the list it returns has at most `numLines` entries. -/
theorem TailN_length_le (content : Bytes) (path : String) (numLines : Int) (hn : 1 ≤ numLines)
    (skip : Bool) :
    ∃ ret ops, TailN (fileSystemOf content) path numLines skip = some ⟨ret, none, ops⟩ ∧
      (ret.length : Int) ≤ numLines := by
  obtain ⟨ops, h⟩ := TailN_regular content path numLines hn skip
  refine ⟨_, ops, h, ?_⟩
  rw [length_lastN]
  omega

/-- Witness of C4: content `"a\nb\nc"` with `numLines = 2`. -/
theorem TailN_length_le_witness :
    (1 : Int) ≤ 2 ∧
    ∃ ret ops, TailN (fileSystemOf [97, 10, 98, 10, 99]) "f" 2 false = some ⟨ret, none, ops⟩ ∧
      (ret.length : Int) ≤ 2 :=
  ⟨by decide, TailN_length_le [97, 10, 98, 10, 99] "f" 2 (by decide) false⟩

/-- C5: for every content and `numLines ≥ 1`, `TailN(path, numLines, true)`
succeeds and no entry of the list it returns is empty. -/
theorem TailN_skip_no_empty (content : Bytes) (path : String) (numLines : Int)
    (hn : 1 ≤ numLines) :
    ∃ ret ops, TailN (fileSystemOf content) path numLines true = some ⟨ret, none, ops⟩ ∧
      ∀ l ∈ ret, l ≠ [] := by
  obtain ⟨ops, h⟩ := TailN_regular content path numLines hn true
  refine ⟨_, ops, h, ?_⟩
  intro l hl
  have hmem := mem_lastN hl
  rw [allLines_true] at hmem
  have := (List.mem_filter.1 hmem).2
  simpa using this

/-- Witness of C5: content `"\n\na\n\n"` with `numLines = 3`. -/
theorem TailN_skip_no_empty_witness :
    (1 : Int) ≤ 3 ∧
    ∃ ret ops, TailN (fileSystemOf [10, 10, 97, 10, 10]) "f" 3 true = some ⟨ret, none, ops⟩ ∧
      ∀ l ∈ ret, l ≠ [] :=
  ⟨by decide, TailN_skip_no_empty [10, 10, 97, 10, 10] "f" 3 (by decide)⟩

/-- C6, as the code behaves: for every content and `numLines` greater than
the number of lines of the file (a final newline ending the last line),
`TailN(path, numLines, false)` succeeds and returns, oldest first, all lines of
the file, followed by one empty string when nothing follows the last newline,
and without the first entry of that list when it is empty. -/
theorem TailN_all_lines (content : Bytes) (path : String) (numLines : Int)
    (hn : ((terminatedLines content).length : Int) < numLines) :
    ∃ ops, TailN (fileSystemOf content) path numLines false
      = some ⟨dropEmptyHead (terminatedLines content
                ++ (if afterLastNewline content = [] then [[]] else [])), none, ops⟩ := by
  obtain ⟨ops, h⟩ := TailN_regular content path numLines (by omega) false
  refine ⟨ops, ?_⟩
  rw [h, allLines_false, ← segments_eq_terminatedLines]
  have hlen : (segments content).length ≤ numLines.toNat := by
    rw [segments_eq_terminatedLines, List.length_append]
    split <;> simp <;> omega
  have hdrop : (dropEmptyHead (segments content)).length ≤ (segments content).length := by
    cases hs : segments content with
    | nil => simp [dropEmptyHead]
    | cons a t => cases a <;> simp [dropEmptyHead]
  rw [lastN_of_length_le (by omega)]

/-- Witness of C6 as amended: content `"a\n"` (one line) with `numLines = 2`
returns `["a", ""]`. -/
theorem TailN_all_lines_witness :
    ((terminatedLines [97, 10]).length : Int) < 2 ∧
    ∃ ops, TailN (fileSystemOf [97, 10]) "f" 2 false = some ⟨[[97], []], none, ops⟩ :=
  ⟨by decide, TailN_all_lines [97, 10] "f" 2 (by decide)⟩

/-- C6 fails as stated: the one-line file `"a\n"` with `numLines = 2` gives
`["a", ""]`, not `["a"]`; the two-line file `"\na"` with `numLines = 3` gives
`["a"]`, not `["", "a"]`. -/
theorem TailN_all_lines_counterexample :
    terminatedLines [97, 10] = [[97]] ∧
    (TailN (fileSystemOf [97, 10]) "f" 2 false).map TailResult.ret = some [[97], []] ∧
    (TailN (fileSystemOf [97, 10]) "f" 2 false).map TailResult.ret
      ≠ some (terminatedLines [97, 10]) ∧
    terminatedLines [10, 97] = [[], [97]] ∧
    (TailN (fileSystemOf [10, 97]) "f" 3 false).map TailResult.ret = some [[97]] := by
  decide

/-- C7: with `numLines ≤ 0`, `TailN` returns the error and an empty list
without any call on the file system, whatever the file system is; on a
regular file whose operations all succeed it returns an error exactly when
`numLines ≤ 0`. -/
theorem TailN_fails_iff (content : Bytes) (path : String) (numLines : Int) (skip : Bool) :
    (numLines ≤ 0 → ∀ fs : FileSystem,
      TailN fs path numLines skip = some ⟨[], some Error.numLinesNotPositive, []⟩) ∧
    (∃ r, TailN (fileSystemOf content) path numLines skip = some r ∧
      (r.err ≠ none ↔ numLines ≤ 0)) := by
  constructor
  · intro h fs
    unfold TailN TailNChunk
    rw [if_pos h]
  · by_cases h : numLines ≤ 0
    · refine ⟨⟨[], some Error.numLinesNotPositive, []⟩, ?_, ?_⟩
      · unfold TailN TailNChunk
        rw [if_pos h]
      · simp [h]
    · obtain ⟨ops, hr⟩ := TailN_regular content path numLines (by omega) skip
      exact ⟨_, hr, by simp [h]⟩

/-- Witness of C7: `TailN(path, 0, false)` fails with no lines and no call on
the file. -/
theorem TailN_fails_iff_witness :
    (0 : Int) ≤ 0 ∧
    TailN (fileSystemOf [97]) "f" 0 false = some ⟨[], some Error.numLinesNotPositive, []⟩ :=
  ⟨by decide, (TailN_fails_iff [97] "f" 0 false).1 (by decide) (fileSystemOf [97])⟩

/-- C8: for every non-empty content whose last byte is not a newline, every
`numLines ≥ 1` and `skipBlankLines`, `TailN` succeeds with a non-empty list
whose last entry is the bytes that follow the last newline (the whole content
when it has none). -/
theorem TailN_unterminated_last (content : Bytes) (path : String) (numLines : Int)
    (skip : Bool) (hne : content ≠ []) (hlast : content.getLast? ≠ some 10)
    (hn : 1 ≤ numLines) :
    ∃ ret ops, TailN (fileSystemOf content) path numLines skip = some ⟨ret, none, ops⟩ ∧
      ret ≠ [] ∧ ret.getLast? = some (afterLastNewline content) := by
  obtain ⟨ops, h⟩ := TailN_regular content path numLines hn skip
  have h1 : 1 ≤ numLines.toNat := by omega
  refine ⟨_, ops, h, ?_⟩
  rcases newline_decomposition content with hno | ⟨pre, line, hc, hl⟩
  · rw [allLines_of_noNewline skip hno hne, afterLastNewline_of_noNewline hno,
      lastN_of_length_le (by simpa using h1)]
    simp
  · have hline : line ≠ [] := by
      intro h0
      apply hlast
      rw [hc, h0, List.getLast?_append]
      rfl
    obtain ⟨front, hfront⟩ := allLines_append_line skip pre line hl hline
    rw [hc, hfront, afterLastNewline_append_line pre line hl, lastN_snoc h1]
    constructor
    · simp
    · rw [List.getLast?_append]; rfl

/-- Witness of C8: content `"only-line"` with `numLines = 5` returns
`["only-line"]`. -/
theorem TailN_unterminated_last_witness :
    ([111, 110, 108, 121, 45, 108, 105, 110, 101] : Bytes) ≠ [] ∧
    ([111, 110, 108, 121, 45, 108, 105, 110, 101] : Bytes).getLast? ≠ some 10 ∧
    (1 : Int) ≤ 5 ∧
    TailN (fileSystemOf [111, 110, 108, 121, 45, 108, 105, 110, 101]) "f" 5 false
      = some ⟨[[111, 110, 108, 121, 45, 108, 105, 110, 101]], none,
          [IOCall.open "f", IOCall.stat, IOCall.seek 0, IOCall.read 9, IOCall.close]⟩ ∧
    ∃ ret ops, TailN (fileSystemOf [111, 110, 108, 121, 45, 108, 105, 110, 101]) "f" 5 false
        = some ⟨ret, none, ops⟩ ∧
      ret ≠ [] ∧ ret.getLast? = some [111, 110, 108, 121, 45, 108, 105, 110, 101] :=
  ⟨by decide, by decide, by decide, by decide,
    TailN_unterminated_last [111, 110, 108, 121, 45, 108, 105, 110, 101] "f" 5 false
      (by decide) (by decide) (by decide)⟩

/-- C9: on a file of size zero, for every `numLines ≥ 1` and
`skipBlankLines`, `TailN` returns an empty list and no error, after opening
the file and asking its size only. -/
theorem TailN_size_zero (fs : FileSystem) (path : String) (file : FileHandle)
    (numLines : Int) (skip : Bool) (hopen : fs path = .ok file) (hstat : file.stat = .ok 0)
    (hn : 1 ≤ numLines) :
    TailN fs path numLines skip
      = some ⟨[], none, [IOCall.open path, IOCall.stat, IOCall.close]⟩ :=
  TailNChunk_size_zero 122 fs path file hopen hstat numLines hn skip

/-- Witness of C9: the empty regular file with `numLines = 1`. -/
theorem TailN_size_zero_witness :
    fileSystemOf [] "f" = .ok (regularFile []) ∧ (regularFile []).stat = .ok 0 ∧
    (1 : Int) ≤ 1 ∧
    TailN (fileSystemOf []) "f" 1 true
      = some ⟨[], none, [IOCall.open "f", IOCall.stat, IOCall.close]⟩ :=
  ⟨rfl, rfl, by decide,
    TailN_size_zero (fileSystemOf []) "f" (regularFile []) 1 true rfl rfl (by decide)⟩

/-- C10: for every buffer, `skipBlankLines`, `existingLines` and
`numLines > len(existingLines)`, the lines returned by `ExtractLines` are the
last `min(numLines - len(existingLines), len C)` entries of `C` followed by
`existingLines`, where `C` lists, in buffer order, for each newline byte of the
buffer the bytes after it up to the next newline or the end, the empty entries
removed when `skipBlankLines` is set. -/
theorem ExtractLines_updatedLines (buffer : Bytes) (numLines : Int) (skip : Bool)
    (existing : List Bytes) (h : (existing.length : Int) < numLines) :
    (ExtractLines buffer numLines skip existing).1
      = lastN (min (numLines - (existing.length : Int)).toNat
            (keepLines skip (tailSegs buffer)).length) (keepLines skip (tailSegs buffer))
          ++ existing := by
  rw [ExtractLines_lines buffer numLines skip existing h, lastN_min]
  rfl

/-- Witness of C10: buffer `"x\na\n\nb"`, `numLines = 3`, blank lines
skipped, one existing line `"z"`: the result is `["a", "b", "z"]`. -/
theorem ExtractLines_updatedLines_witness :
    ((([[122]] : List Bytes).length : Nat) : Int) < 3 ∧
    (ExtractLines [120, 10, 97, 10, 10, 98] 3 true [[122]]).1 = [[97], [98], [122]] :=
  ⟨by decide, ExtractLines_updatedLines [120, 10, 97, 10, 10, 98] 3 true [[122]] (by decide)⟩

/-! ## More on the scan of `ExtractLines` -/

theorem scanBack_noNewline (numLines : Int) (skip : Bool) (m : Nat) :
    ∀ (rp r : Bytes) (nl : List Bytes), noNewline rp →
      scanBack numLines skip m rp r nl = (rp.reverse ++ r, nl) := by
  intro rp
  induction rp with
  | nil => intro r nl _; simp [scanBack]
  | cons b rp ih =>
    intro r nl h
    obtain ⟨hb, hrp⟩ := noNewline_cons.1 h
    unfold scanBack
    simp only [hb, if_false]
    rw [ih (b :: r) nl hrp]
    simp

theorem scanBack_lines_full (numLines : Int) (skip : Bool) (m : Nat) :
    ∀ (rp r : Bytes) (nl : List Bytes), noNewline r → numLines ≤ ((m + nl.length : Nat) : Int) →
      (scanBack numLines skip m rp r nl).2
        = nl ++ (candidates skip (rp.reverse ++ r)).reverse.take 1 := by
  intro rp
  induction rp with
  | nil =>
    intro r nl hr _
    simp [scanBack, candidates_of_noNewline skip hr]
  | cons b rp ih =>
    intro r nl hr hge
    by_cases hb : b = 10
    · subst hb
      have hseg : tailSegs (rp.reverse ++ 10 :: r) = tailSegs rp.reverse ++ [r] := by
        rw [tailSegs_append_nl, firstSeg_of_noNewline hr, tailSegs_of_noNewline hr]
      have hcand : candidates skip ((10 :: rp).reverse ++ r)
          = candidates skip rp.reverse ++ keepLines skip [r] := by
        simp only [List.reverse_cons, List.append_assoc, List.singleton_append, candidates,
          hseg, keepLines_append]
      rw [hcand]
      unfold scanBack
      simp only [if_true]
      by_cases hs : (skip && r.length == 0) = true
      · have hk : keepLines skip [r] = [] := by rw [keepLines_singleton, if_pos hs]
        simp only [hs, if_true, hk, List.append_nil]
        have := ih [] nl noNewline_nil hge
        simpa using this
      · have hk : keepLines skip [r] = [r] := by rw [keepLines_singleton, if_neg hs]
        have hc : numLines ≤ ((m + (nl ++ [r]).length : Nat) : Int) := by
          simp only [List.length_append, List.length_singleton]; omega
        simp only [hs, hk, Bool.false_eq_true, if_false, hc, if_true]
        simp
    · have hr' : noNewline (b :: r) := noNewline_cons.2 ⟨hb, hr⟩
      have := ih (b :: r) nl hr' hge
      unfold scanBack
      simp only [hb, if_false]
      rw [this]; simp

theorem ExtractLines_lines_full (buffer : Bytes) (numLines : Int) (skip : Bool)
    (existing : List Bytes) (h : numLines ≤ (existing.length : Int)) :
    (ExtractLines buffer numLines skip existing).1
      = lastN 1 (candidates skip buffer) ++ existing := by
  rw [ExtractLines_eq_scanBack]
  have := scanBack_lines_full numLines skip existing.length buffer.reverse [] [] noNewline_nil
    (by simpa using h)
  simp only [List.reverse_reverse, List.append_nil, List.nil_append] at this
  simp only [this, lastN_reverse_take]

theorem ExtractLines_of_noNewline (buffer : Bytes) (numLines : Int) (skip : Bool)
    (existing : List Bytes) (h : noNewline buffer) :
    ExtractLines buffer numLines skip existing = (existing, buffer, none) := by
  rw [ExtractLines_eq_scanBack,
    scanBack_noNewline numLines skip existing.length buffer.reverse [] []
      (fun b hb => h b (List.mem_reverse.1 hb))]
  simp

theorem ExtractLines_length_ge (buffer : Bytes) (numLines : Int) (skip : Bool)
    (existing : List Bytes) :
    existing.length ≤ (ExtractLines buffer numLines skip existing).1.length := by
  rw [ExtractLines_eq_scanBack]
  simp

/-- C11 on the code: with buffer `"a\nb"`, `numLines = 1`, no blank-line
skipping and no existing line, `ExtractLines` extracts `"b"` and leaves the
loop before it cuts the buffer, so the returned buffer is still `"a\nb"`: it
is not the prefix `"a"` that ends before the newline of the extracted line, and
the buffer is not the returned buffer followed by a newline and `"b"`. -/
theorem ExtractLines_break_keeps_line :
    ExtractLines [97, 10, 98] 1 false [] = ([[98]], [97, 10, 98], none) ∧
    (ExtractLines [97, 10, 98] 1 false []).2.1 ≠ [97] ∧
    ([97, 10, 98] : Bytes) ≠ (ExtractLines [97, 10, 98] 1 false []).2.1 ++ 10 :: [98] := by
  decide

/-- C12, as the code behaves: `ExtractLines` tests the count right after each
line it collects and collects no further line once the test holds. For
every `numLines` the updated lines have at most `max(numLines,
len(existingLines) + 1)` entries, at most `numLines` when
`len(existingLines) < numLines`, and when `len(existingLines) ≥ numLines`
already they are `existingLines` preceded by the last candidate line of the
buffer, if it has one. -/
theorem ExtractLines_count_bound (buffer : Bytes) (numLines : Int) (skip : Bool)
    (existing : List Bytes) :
    ((ExtractLines buffer numLines skip existing).1.length : Int)
        ≤ max numLines ((existing.length : Int) + 1) ∧
    ((existing.length : Int) < numLines →
      ((ExtractLines buffer numLines skip existing).1.length : Int) ≤ numLines) ∧
    (numLines ≤ (existing.length : Int) →
      (ExtractLines buffer numLines skip existing).1
        = lastN 1 (keepLines skip (tailSegs buffer)) ++ existing) := by
  have hlt : (existing.length : Int) < numLines →
      ((ExtractLines buffer numLines skip existing).1.length : Int) ≤ numLines := by
    intro h
    rw [ExtractLines_lines buffer numLines skip existing h, List.length_append, length_lastN]
    omega
  have hge : numLines ≤ (existing.length : Int) →
      (ExtractLines buffer numLines skip existing).1
        = lastN 1 (keepLines skip (tailSegs buffer)) ++ existing :=
    fun h => ExtractLines_lines_full buffer numLines skip existing h
  refine ⟨?_, hlt, hge⟩
  by_cases h : (existing.length : Int) < numLines
  · exact le_trans (hlt h) (le_max_left _ _)
  · rw [hge (by omega), List.length_append, length_lastN]
    have : ((min 1 (keepLines skip (tailSegs buffer)).length + existing.length : Nat) : Int)
        ≤ (existing.length : Int) + 1 := by omega
    exact le_trans this (le_max_right _ _)

/-- Witness of C12 as amended: buffer `"a\nb"`, `numLines = 1` and one
existing line `"z"`. -/
theorem ExtractLines_count_bound_witness :
    (1 : Int) ≤ ((([[122]] : List Bytes).length : Nat) : Int) ∧
    (ExtractLines [97, 10, 98] 1 false [[122]]).1 = [[98], [122]] :=
  ⟨by decide, (ExtractLines_count_bound [97, 10, 98] 1 false [[122]]).2.2 (by decide)⟩

/-- C12 fails as stated: with buffer `"a\nb"`, `numLines = 1` and the existing
line `"z"`, the count is reached on entry, yet `"b"` is collected: the updated
lines `["b", "z"]` have two entries, more than `max(1, 1)`, and differ from the
existing lines. With buffer `"a\nb\n"` and blank lines skipped, the returned
buffer `"a\nb"` is not the buffer either. -/
theorem ExtractLines_count_bound_counterexample :
    ExtractLines [97, 10, 98] 1 false [[122]] = ([[98], [122]], [97, 10, 98], none) ∧
    ¬ ((ExtractLines [97, 10, 98] 1 false [[122]]).1.length
        ≤ max 1 ([[122]] : List Bytes).length) ∧
    (ExtractLines [97, 10, 98] 1 false [[122]]).1 ≠ [[122]] ∧
    ExtractLines [97, 10, 98, 10] 1 true [[122]] = ([[98], [122]], [97, 10, 98], none) ∧
    (ExtractLines [97, 10, 98, 10] 1 true [[122]]).2.1 ≠ [97, 10, 98, 10] := by
  decide

/-- C13: on a buffer without newline byte, for every `numLines`,
`skipBlankLines` and `existingLines`, `ExtractLines` returns the existing
lines, the bytes of the buffer and a nil error. -/
theorem ExtractLines_no_newline (buffer : Bytes) (numLines : Int) (skip : Bool)
    (existing : List Bytes) (h : ∀ b ∈ buffer, b ≠ 10) :
    ExtractLines buffer numLines skip existing = (existing, buffer, none) :=
  ExtractLines_of_noNewline buffer numLines skip existing h

/-- Witness of C13: buffer `"abc"`, `numLines = 0`, existing lines `["z"]`. -/
theorem ExtractLines_no_newline_witness :
    (∀ b ∈ ([97, 98, 99] : Bytes), b ≠ 10) ∧
    ExtractLines [97, 98, 99] 0 true [[122]] = ([[122]], [97, 98, 99], none) :=
  ⟨by decide, ExtractLines_no_newline [97, 98, 99] 0 true [[122]] (by decide)⟩

/-- C18: when `ExtractLines` returns fewer than `numLines` lines, the returned
buffer has no newline byte, and a second call on the returned buffer and lines
returns them unchanged. -/
theorem ExtractLines_idempotent_below (buffer : Bytes) (numLines : Int) (skip : Bool)
    (existing : List Bytes)
    (h : ((ExtractLines buffer numLines skip existing).1.length : Int) < numLines) :
    (∀ b ∈ (ExtractLines buffer numLines skip existing).2.1, b ≠ 10) ∧
    ExtractLines (ExtractLines buffer numLines skip existing).2.1 numLines skip
        (ExtractLines buffer numLines skip existing).1
      = ((ExtractLines buffer numLines skip existing).1,
          (ExtractLines buffer numLines skip existing).2.1, none) := by
  have hge := ExtractLines_length_ge buffer numLines skip existing
  have hex : (existing.length : Int) < numLines := by omega
  have hl := ExtractLines_lines buffer numLines skip existing hex
  have hfew : (((candidates skip buffer).length + existing.length : Nat) : Int) < numLines := by
    rw [hl, List.length_append, length_lastN] at h
    omega
  have hb := ExtractLines_buffer buffer numLines skip existing hfew
  have hno : noNewline (ExtractLines buffer numLines skip existing).2.1 := by
    rw [hb]; exact firstSeg_noNewline buffer
  exact ⟨hno, ExtractLines_of_noNewline _ numLines skip _ hno⟩

/-- Witness of C18: buffer `"a\nb\nc"`, `numLines = 5`: two lines are found,
`"a"` stays in the buffer. -/
theorem ExtractLines_idempotent_below_witness :
    ((ExtractLines [97, 10, 98, 10, 99] 5 false []).1.length : Int) < 5 ∧
    ExtractLines [97, 10, 98, 10, 99] 5 false [] = ([[98], [99]], [97], none) ∧
    ExtractLines [97] 5 false [[98], [99]] = ([[98], [99]], [97], none) :=
  ⟨by decide, by decide,
    (ExtractLines_idempotent_below [97, 10, 98, 10, 99] 5 false [] (by decide)).2⟩

theorem length_tailSegs (bs : Bytes) : (tailSegs bs).length = bs.count 10 := by
  induction bs with
  | nil => rfl
  | cons b bs ih =>
    by_cases hb : b = 10
    · subst hb; simp [tailSegs_cons_nl, ih]
    · have hb' : ¬ (b == 10) = true := by simpa using hb
      rw [tailSegs_cons_ne hb, ih, List.count_cons, if_neg hb', Nat.add_zero]

/-- C17: for every content and `numLines ≥ 1`, `TailN(path, numLines, false)`
succeeds and returns the last `min(numLines, len L)` entries of `L`, the
newline-separated segments of the content (one more than its newline bytes)
without the first segment when it is empty. After a trailing newline the last
entry is the empty string, and a content that starts with a newline gives the
segments that follow its empty first line. -/
theorem TailN_segments (content : Bytes) (path : String) (numLines : Int)
    (hn : 1 ≤ numLines) :
    ∃ ret ops,
      TailN (fileSystemOf content) path numLines false = some ⟨ret, none, ops⟩ ∧
      ret = lastN (min numLines.toNat (dropEmptyHead (segments content)).length)
              (dropEmptyHead (segments content)) ∧
      (segments content).length = content.count 10 + 1 ∧
      (∀ front, content = front ++ [10] → ret.getLast? = some []) ∧
      (∀ rest, content = 10 :: rest → dropEmptyHead (segments content) = segments rest) := by
  obtain ⟨ops, h⟩ := TailN_regular content path numLines hn false
  have h1 : 1 ≤ numLines.toNat := by omega
  refine ⟨_, ops, h, ?_, ?_, ?_, ?_⟩
  · rw [allLines_false, lastN_min]
  · simp [segments, length_tailSegs]
  · intro front hc
    have hk : candidates false (front ++ [10]) = tailSegs front ++ [[]] := by
      have e : candidates false (front ++ [10]) = tailSegs (front ++ 10 :: []) := by
        simp [candidates, keepLines]
      rw [e, tailSegs_append_nl]
      rfl
    unfold allLines
    rw [hc, hk, ← List.append_assoc, lastN_snoc h1, List.getLast?_append]
    rfl
  · intro rest hc
    rw [hc]
    simp [segments, firstSeg_cons_nl, tailSegs_cons_nl, dropEmptyHead]

/-- Witness of C17: content `"\na\n"` with `numLines = 5` returns `["a", ""]`. -/
theorem TailN_segments_witness :
    (1 : Int) ≤ 5 ∧
    TailN (fileSystemOf [10, 97, 10]) "f" 5 false
      = some ⟨[[97], []], none,
          [IOCall.open "f", IOCall.stat, IOCall.seek 0, IOCall.read 3, IOCall.close]⟩ ∧
    ∃ ret ops,
      TailN (fileSystemOf [10, 97, 10]) "f" 5 false = some ⟨ret, none, ops⟩ ∧
      ret = [[97], []] := by
  obtain ⟨ret, ops, h, hret, _⟩ := TailN_segments [10, 97, 10] "f" 5 (by decide)
  exact ⟨by decide, by decide, ret, ops, h, hret⟩

/-! ## One iteration of the loop of `TailN`, on any file -/

theorem chunkLen_eq_min (rem cs : Nat) : (if rem < cs then rem else cs) = min cs rem := by
  split <;> omega

theorem tailLoop_exit (file : FileHandle) (numLines : Int) (skip : Bool) (fuel : Nat)
    (s : LoopState) (h : ¬ (0 < s.remaining ∧ (s.lines.length : Int) < numLines)) :
    tailLoop file numLines skip (fuel + 1) s = some (s, none) := by
  unfold tailLoop
  rw [if_neg h]

theorem tailLoop_fail (file : FileHandle) (numLines : Int) (skip : Bool) (fuel : Nat)
    (s : LoopState) (h : 0 < s.remaining ∧ (s.lines.length : Int) < numLines) (err : Error)
    (hout : chunkOutcome file (s.remaining - min s.chunkSize s.remaining)
      (min s.chunkSize s.remaining) = some err) :
    tailLoop file numLines skip (fuel + 1) s
      = some ({ s with
                chunkSize := min s.chunkSize s.remaining,
                ops := s.ops ++ chunkOps file (s.remaining - min s.chunkSize s.remaining)
                  (min s.chunkSize s.remaining) }, some err) := by
  unfold tailLoop
  rw [if_pos h]
  simp only [chunkLen_eq_min]
  unfold chunkOutcome at hout
  unfold chunkOps
  cases hseek : file.seek (s.remaining - min s.chunkSize s.remaining) with
  | some e =>
    rw [hseek] at hout
    simp only at hout ⊢
    rw [Option.some.inj hout]
  | none =>
    rw [hseek] at hout
    simp only at hout ⊢
    rcases hread : file.read (s.remaining - min s.chunkSize s.remaining)
      (min s.chunkSize s.remaining) with ⟨chunk, re⟩
    rw [hread] at hout
    cases re with
    | some e =>
      simp only at hout ⊢
      rw [Option.some.inj hout, List.append_assoc]
      rfl
    | none =>
      simp only at hout ⊢
      by_cases hlen : chunk.length ≠ min s.chunkSize s.remaining
      · rw [if_pos hlen] at hout
        rw [if_pos hlen, ← Option.some.inj hout, List.append_assoc]
        rfl
      · rw [if_neg hlen] at hout
        cases hout

theorem chunkOutcome_none {file : FileHandle} {offset len : Nat}
    (h : chunkOutcome file offset len = none) :
    file.seek offset = none ∧ (file.read offset len).2 = none ∧
      (file.read offset len).1.length = len := by
  unfold chunkOutcome at h
  cases hseek : file.seek offset with
  | some e => rw [hseek] at h; cases h
  | none =>
    rw [hseek] at h
    rcases hread : file.read offset len with ⟨chunk, re⟩
    rw [hread] at h
    cases re with
    | some e => cases h
    | none =>
      simp only at h
      by_cases hlen : chunk.length ≠ len
      · rw [if_pos hlen] at h; cases h
      · exact ⟨rfl, rfl, not_not.1 hlen⟩

theorem tailLoop_next (file : FileHandle) (numLines : Int) (skip : Bool) (fuel : Nat)
    (s : LoopState) (h : 0 < s.remaining ∧ (s.lines.length : Int) < numLines)
    (hout : chunkOutcome file (s.remaining - min s.chunkSize s.remaining)
      (min s.chunkSize s.remaining) = none) :
    tailLoop file numLines skip (fuel + 1) s
      = if numLines ≤ ((afterChunk file numLines skip s).lines.length : Int)
        then some (afterChunk file numLines skip s, none)
        else tailLoop file numLines skip fuel (afterChunk file numLines skip s) := by
  obtain ⟨hseek, herr, hlen⟩ := chunkOutcome_none hout
  have hread : file.read (s.remaining - min s.chunkSize s.remaining)
      (min s.chunkSize s.remaining)
      = ((file.read (s.remaining - min s.chunkSize s.remaining)
          (min s.chunkSize s.remaining)).1, none) := by
    rw [← herr]
  have hops : chunkOps file (s.remaining - min s.chunkSize s.remaining)
      (min s.chunkSize s.remaining)
      = [IOCall.seek (s.remaining - min s.chunkSize s.remaining)]
        ++ [IOCall.read (min s.chunkSize s.remaining)] := by
    unfold chunkOps; rw [hseek]; rfl
  unfold afterChunk
  simp only
  rw [hops, ← List.append_assoc]
  generalize (file.read (s.remaining - min s.chunkSize s.remaining)
    (min s.chunkSize s.remaining)).1 = chunk at hread hlen ⊢
  have hEx : ExtractLines (chunk ++ s.buffer) numLines skip s.lines
      = ((ExtractLines (chunk ++ s.buffer) numLines skip s.lines).1,
         (ExtractLines (chunk ++ s.buffer) numLines skip s.lines).2.1, none) := rfl
  conv_lhs => unfold tailLoop
  simp only [h, and_self, if_true, chunkLen_eq_min, hseek, hread, hlen, ne_eq,
    not_true_eq_false, if_false]
  rw [hEx]

theorem afterChunk_lines_le (file : FileHandle) (numLines : Int) (skip : Bool) (s : LoopState)
    (h : (s.lines.length : Int) < numLines) :
    ((afterChunk file numLines skip s).lines.length : Int) ≤ numLines := by
  show ((ExtractLines _ numLines skip s.lines).1.length : Int) ≤ numLines
  rw [ExtractLines_lines _ numLines skip s.lines h, List.length_append, length_lastN]
  omega

theorem tailLoop_zero (file : FileHandle) (numLines : Int) (skip : Bool) (s : LoopState) :
    tailLoop file numLines skip 0 s = none := by
  unfold tailLoop; rfl

theorem tailLoop_lines_le (file : FileHandle) (numLines : Int) (skip : Bool) :
    ∀ (fuel : Nat) (s s' : LoopState) (e : Option Error),
      (s.lines.length : Int) ≤ numLines →
      tailLoop file numLines skip fuel s = some (s', e) →
      (s'.lines.length : Int) ≤ numLines := by
  intro fuel
  induction fuel with
  | zero =>
    intro s s' e _ h
    rw [tailLoop_zero] at h
    cases h
  | succ fuel ih =>
    intro s s' e hl h
    by_cases htest : 0 < s.remaining ∧ (s.lines.length : Int) < numLines
    · cases hout : chunkOutcome file (s.remaining - min s.chunkSize s.remaining)
          (min s.chunkSize s.remaining) with
      | some err =>
        rw [tailLoop_fail file numLines skip fuel s htest err hout] at h
        injection h with h
        injection h with h1 _
        rw [← h1]
        exact hl
      | none =>
        rw [tailLoop_next file numLines skip fuel s htest hout] at h
        have hle := afterChunk_lines_le file numLines skip s htest.2
        by_cases hb : numLines ≤ ((afterChunk file numLines skip s).lines.length : Int)
        · rw [if_pos hb] at h
          injection h with h
          injection h with h1 _
          rw [← h1]
          exact hle
        · rw [if_neg hb] at h
          exact ih _ s' e hle h
    · rw [tailLoop_exit file numLines skip fuel s htest] at h
      injection h with h
      injection h with h1 _
      rw [← h1]
      exact hl

theorem IterChain_zero (c : Nat) (rems : List Nat) (h : IterChain c 0 rems) : rems = [] := by
  cases rems with
  | nil => rfl
  | cons r rs =>
    unfold IterChain at h
    omega

/-- The whole run of the loop of `TailN` on any file, for a chunk size
`c ≥ 1`, from a state of the loop: it ends, and `rems` lists the values of
`remaining` at the start of the iterations it made. -/
theorem tailLoop_run (file : FileHandle) (numLines : Int) (skip : Bool) (c : Nat)
    (hc : 1 ≤ c) :
    ∀ (fuel : Nat) (s : LoopState), s.remaining < fuel → (0 < s.remaining → s.chunkSize = c) →
      ∃ s' e rems, tailLoop file numLines skip fuel s = some (s', e) ∧
        IterChain c s.remaining rems ∧
        s'.ops = s.ops ++ iterationOps file c rems ∧
        (∀ r ∈ rems, chunkOutcome file (r - min c r) (min c r) ≠ none →
          e = chunkOutcome file (r - min c r) (min c r)) ∧
        (e = none → s'.remaining = 0 ∨ numLines ≤ (s'.lines.length : Int)) ∧
        rems.length * c < s.remaining + c ∧
        s'.remaining ≤ s.remaining := by
  intro fuel
  induction fuel with
  | zero => intro s h _; omega
  | succ fuel ih =>
    intro s hfuel hcs
    by_cases htest : 0 < s.remaining ∧ (s.lines.length : Int) < numLines
    · have hcs' : s.chunkSize = c := hcs htest.1
      have hk1 : 1 ≤ min c s.remaining := by
        have := htest.1
        omega
      cases hout : chunkOutcome file (s.remaining - min c s.remaining) (min c s.remaining) with
      | some err =>
        have hstep := tailLoop_fail file numLines skip fuel s htest err (by rw [hcs']; exact hout)
        rw [hcs'] at hstep
        refine ⟨_, some err, [s.remaining], hstep, ?_, ?_, ?_, ?_, ?_, ?_⟩
        · exact ⟨rfl, htest.1, trivial⟩
        · simp [iterationOps]
        · intro r hr _
          rw [List.mem_singleton.1 hr, hout]
        · intro h; cases h
        · simp only [List.length_singleton, Nat.one_mul]; omega
        · exact le_refl _
      | none =>
        have hstep := tailLoop_next file numLines skip fuel s htest (by rw [hcs']; exact hout)
        have hrem : (afterChunk file numLines skip s).remaining
            = s.remaining - min c s.remaining := by
          show s.remaining - min s.chunkSize s.remaining = _
          rw [hcs']
        have hops : (afterChunk file numLines skip s).ops
            = s.ops ++ chunkOps file (s.remaining - min c s.remaining) (min c s.remaining) := by
          show s.ops ++ chunkOps file (s.remaining - min s.chunkSize s.remaining)
            (min s.chunkSize s.remaining) = _
          rw [hcs']
        have hchunk : (afterChunk file numLines skip s).chunkSize = min c s.remaining := by
          show min s.chunkSize s.remaining = _
          rw [hcs']
        by_cases hb : numLines ≤ ((afterChunk file numLines skip s).lines.length : Int)
        · rw [if_pos hb] at hstep
          refine ⟨_, none, [s.remaining], hstep, ?_, ?_, ?_, ?_, ?_, ?_⟩
          · exact ⟨rfl, htest.1, trivial⟩
          · rw [hops]; simp [iterationOps]
          · intro r hr hne
            rw [List.mem_singleton.1 hr] at hne
            exact absurd hout hne
          · intro _; exact Or.inr hb
          · simp only [List.length_singleton, Nat.one_mul]; omega
          · rw [hrem]; omega
        · rw [if_neg hb] at hstep
          obtain ⟨s', e, rems, hrun, hchain, hopsrun, hfail, hend, hlen, hle⟩ :=
            ih (afterChunk file numLines skip s) (by rw [hrem]; omega)
              (by rw [hrem, hchunk]; intro hpos; omega)
          rw [hrem] at hchain hlen hle
          refine ⟨s', e, s.remaining :: rems, hstep.trans hrun, ?_, ?_, ?_, hend, ?_, ?_⟩
          · exact ⟨rfl, htest.1, hchain⟩
          · rw [hopsrun, hops, List.append_assoc]; rfl
          · intro r hr hne
            rcases List.mem_cons.1 hr with h1 | h2
            · rw [h1] at hne
              exact absurd hout hne
            · exact hfail r h2 hne
          · by_cases hcr : c ≤ s.remaining
            · have hmin : min c s.remaining = c := by omega
              rw [hmin] at hlen
              simp only [List.length_cons, Nat.add_mul, Nat.one_mul]
              generalize rems.length * c = q at hlen ⊢
              omega
            · have hmin : s.remaining - min c s.remaining = 0 := by omega
              rw [hmin] at hchain
              rw [IterChain_zero c rems hchain]
              simp only [List.length_cons, List.length_nil, Nat.zero_add, Nat.one_mul]
              omega
          · omega
    · refine ⟨s, none, [], tailLoop_exit file numLines skip fuel s htest, trivial, ?_, ?_, ?_,
        ?_, le_refl _⟩
      · simp [iterationOps]
      · intro r hr; cases hr
      · intro _; omega
      · simp only [List.length_nil, Nat.zero_mul]; omega

/-! ## Claims on the loop of `TailN` -/

theorem IterChain_bounds (c : Nat) :
    ∀ (rems : List Nat) (rem : Nat), IterChain c rem rems → ∀ r ∈ rems, 0 < r ∧ r ≤ rem := by
  intro rems
  induction rems with
  | nil => intro rem _ r hr; cases hr
  | cons a rs ih =>
    intro rem h r hr
    unfold IterChain at h
    obtain ⟨ha, hpos, hrest⟩ := h
    rcases List.mem_cons.1 hr with h1 | h2
    · rw [h1]; omega
    · have := ih (a - min c a) hrest r h2
      omega

theorem chunkOutcome_short {file : FileHandle} {offset len : Nat}
    (hseek : file.seek offset = none) (herr : (file.read offset len).2 = none)
    (hlen : (file.read offset len).1.length ≠ len) :
    chunkOutcome file offset len = some Error.shortRead := by
  unfold chunkOutcome
  rw [hseek]
  rcases hread : file.read offset len with ⟨chunk, re⟩
  rw [hread] at herr hlen
  simp only at herr hlen ⊢
  rw [herr]
  simp only
  rw [if_pos hlen]

/-- C15: for every file, file size and chunk size `c ≥ 1`, the loop of `TailN`
ends. With `rems` the values of `remaining` at the start of its iterations:
the first is the file size and each next one is smaller by the `min c r` bytes
read; the iteration at `r` seeks `r - min c r` and reads `min c r ≥ 1` bytes,
which end at `r ≤ fileSize`; there are at most `ceil(fileSize / c)`
iterations; `remaining` ends within `0..fileSize`; a loop that ends without
error ends with `remaining = 0` or with `numLines` lines or more, and in such a
state the loop stops at once. -/
theorem tailLoop_iterations (file : FileHandle) (numLines : Int) (skip : Bool)
    (c fileSize : Nat) (ops0 : List IOCall) (hc : 1 ≤ c) :
    (∃ s' e rems,
      tailLoop file numLines skip (fileSize + 1)
        { buffer := [], lines := [], remaining := fileSize, chunkSize := c, ops := ops0 }
        = some (s', e) ∧
      IterChain c fileSize rems ∧
      s'.ops = ops0 ++ iterationOps file c rems ∧
      (∀ r ∈ rems, 1 ≤ min c r ∧ (r - min c r) + min c r = r ∧ r ≤ fileSize ∧
        r - min c r < r) ∧
      rems.length ≤ (fileSize + c - 1) / c ∧
      s'.remaining ≤ fileSize ∧
      (e = none → s'.remaining = 0 ∨ numLines ≤ (s'.lines.length : Int))) ∧
    (∀ (fuel : Nat) (s : LoopState),
      s.remaining = 0 ∨ numLines ≤ (s.lines.length : Int) →
      tailLoop file numLines skip (fuel + 1) s = some (s, none)) := by
  constructor
  · obtain ⟨s', e, rems, hrun, hchain, hops, _, hend, hlen, hle⟩ :=
      tailLoop_run file numLines skip c hc (fileSize + 1)
        { buffer := [], lines := [], remaining := fileSize, chunkSize := c, ops := ops0 }
        (Nat.lt_succ_self _) (fun _ => rfl)
    refine ⟨s', e, rems, hrun, hchain, hops, ?_, ?_, hle, hend⟩
    · intro r hr
      have := IterChain_bounds c rems fileSize hchain r hr
      omega
    · rw [Nat.le_div_iff_mul_le (by omega)]
      simp only at hlen
      generalize rems.length * c = q at hlen ⊢
      omega
  · intro fuel s h
    apply tailLoop_exit
    omega

/-- Witness of C15: a five-byte file read with chunk size `2` takes the three
iterations that start at `remaining = 5, 3, 1`. -/
theorem tailLoop_iterations_witness :
    1 ≤ 2 ∧
    (tailLoop (regularFile [97, 10, 98, 10, 99]) 5 false (5 + 1)
        { buffer := [], lines := [], remaining := 5, chunkSize := 2, ops := [] }).map
      (fun p => (p.1.ops, p.1.remaining, p.2))
      = some ([IOCall.seek 3, IOCall.read 2, IOCall.seek 1, IOCall.read 2, IOCall.seek 0,
          IOCall.read 1], 0, none) ∧
    ∃ s' e rems,
      tailLoop (regularFile [97, 10, 98, 10, 99]) 5 false (5 + 1)
        { buffer := [], lines := [], remaining := 5, chunkSize := 2, ops := [] }
        = some (s', e) ∧
      IterChain 2 5 rems ∧
      rems.length ≤ (5 + 2 - 1) / 2 :=
  ⟨by decide, by decide,
    match (tailLoop_iterations (regularFile [97, 10, 98, 10, 99]) 5 false 2 5 []
      (by decide)).1 with
    | ⟨s', e, rems, h, hchain, _, _, hlen, _⟩ => ⟨s', e, rems, h, hchain, hlen⟩⟩

theorem TailNChunk_of_loop (c : Nat) (fs : FileSystem) (path : String) (numLines : Int)
    (skip : Bool) (hn : 1 ≤ numLines) (file : FileHandle) (fileSize : Nat)
    (hopen : fs path = .ok file) (hstat : file.stat = .ok fileSize) (s' : LoopState)
    (e : Option Error)
    (hloop : tailLoop file numLines skip (fileSize + 1)
      { buffer := [], lines := [], remaining := fileSize, chunkSize := c,
        ops := [IOCall.open path, IOCall.stat] } = some (s', e)) :
    TailNChunk c fs path numLines skip
      = some ⟨(match e with
                | some _ => []
                | none => finishLines numLines skip s'), e, s'.ops ++ [IOCall.close]⟩ := by
  unfold TailNChunk
  rw [if_neg (by omega)]
  simp only [hopen, hstat, hloop]
  cases e <;> rfl

/-- C14: whenever `TailN` returns an error, the list it returns is empty. On
every file, the calls of a run are those of its loop iterations, and when the
read of any of these iterations returns fewer bytes than asked, without error,
the call fails with the short-read error and returns an empty list. -/
theorem TailNChunk_error_discards (c : Nat) (fs : FileSystem) (path : String)
    (numLines : Int) (skip : Bool) :
    (∀ r, TailNChunk c fs path numLines skip = some r → r.err ≠ none → r.ret = []) ∧
    (1 ≤ c → 1 ≤ numLines → ∀ file fileSize, fs path = .ok file → file.stat = .ok fileSize →
      ∃ r rems, TailNChunk c fs path numLines skip = some r ∧
        IterChain c fileSize rems ∧
        r.ops = [IOCall.open path, IOCall.stat] ++ iterationOps file c rems ++ [IOCall.close] ∧
        ∀ rem ∈ rems, file.seek (rem - min c rem) = none →
          (file.read (rem - min c rem) (min c rem)).2 = none →
          (file.read (rem - min c rem) (min c rem)).1.length ≠ min c rem →
          r.err = some Error.shortRead ∧ r.ret = []) := by
  constructor
  · intro r h herr
    unfold TailNChunk at h
    by_cases hn : numLines ≤ 0
    · rw [if_pos hn] at h
      injection h with h
      rw [← h]
    · rw [if_neg hn] at h
      cases hopen : fs path with
      | error err =>
        rw [hopen] at h
        injection h with h
        rw [← h]
      | ok file =>
        rw [hopen] at h
        simp only at h
        cases hstat : file.stat with
        | error err =>
          rw [hstat] at h
          injection h with h
          rw [← h]
        | ok fileSize =>
          rw [hstat] at h
          simp only at h
          cases hloop : tailLoop file numLines skip (fileSize + 1)
              { buffer := [], lines := [], remaining := fileSize, chunkSize := c,
                ops := [IOCall.open path, IOCall.stat] } with
          | none => rw [hloop] at h; cases h
          | some p =>
            obtain ⟨s', e⟩ := p
            rw [hloop] at h
            cases e with
            | some err =>
              injection h with h
              rw [← h]
            | none =>
              injection h with h
              rw [← h] at herr
              exact absurd rfl herr
  · intro hc hn file fileSize hopen hstat
    obtain ⟨s', e, rems, hrun, hchain, hops, hfail, _, _, _⟩ :=
      tailLoop_run file numLines skip c hc (fileSize + 1)
        { buffer := [], lines := [], remaining := fileSize, chunkSize := c,
          ops := [IOCall.open path, IOCall.stat] }
        (Nat.lt_succ_self _) (fun _ => rfl)
    have hres := TailNChunk_of_loop c fs path numLines skip hn file fileSize hopen hstat s' e hrun
    refine ⟨_, rems, hres, hchain, ?_, ?_⟩
    · show s'.ops ++ [IOCall.close] = _
      rw [hops]
    · intro rem hrem hseek herr hlen
      have hshort := chunkOutcome_short hseek herr hlen
      have he : e = some Error.shortRead := by
        rw [← hshort]
        exact hfail rem hrem (by rw [hshort]; exact Option.some_ne_none _)
      subst he
      exact ⟨rfl, rfl⟩

/-- Witness of C14: the file `"a\nb\nc\nd"` read with chunk size `2`, whose
second read (at offset `3`) is one byte short: the loop stops with the line
`"d"` already accumulated, and the call returns no line and the short-read
error. -/
theorem TailNChunk_error_discards_witness :
    (tailLoop (shortReadAt [97, 10, 98, 10, 99, 10, 100] 3) 5 false (7 + 1)
        { buffer := [], lines := [], remaining := 7, chunkSize := 2, ops := [] }).map
      (fun p => (p.1.lines, p.2)) = some ([[100]], some Error.shortRead) ∧
    TailNChunk 2 (fun _ => .ok (shortReadAt [97, 10, 98, 10, 99, 10, 100] 3)) "f" 5 false
      = some ⟨[], some Error.shortRead,
          [IOCall.open "f", IOCall.stat, IOCall.seek 5, IOCall.read 2, IOCall.seek 3,
            IOCall.read 2, IOCall.close]⟩ ∧
    (1 ≤ 2 ∧ (1 : Int) ≤ 5 ∧
      ∃ r rems,
        TailNChunk 2 (fun _ => .ok (shortReadAt [97, 10, 98, 10, 99, 10, 100] 3)) "f" 5 false
          = some r ∧
        IterChain 2 7 rems ∧
        r.ops = [IOCall.open "f", IOCall.stat]
          ++ iterationOps (shortReadAt [97, 10, 98, 10, 99, 10, 100] 3) 2 rems
          ++ [IOCall.close] ∧
        ∀ rem ∈ rems,
          (shortReadAt [97, 10, 98, 10, 99, 10, 100] 3).seek (rem - min 2 rem) = none →
          ((shortReadAt [97, 10, 98, 10, 99, 10, 100] 3).read (rem - min 2 rem)
            (min 2 rem)).2 = none →
          ((shortReadAt [97, 10, 98, 10, 99, 10, 100] 3).read (rem - min 2 rem)
            (min 2 rem)).1.length ≠ min 2 rem →
          r.err = some Error.shortRead ∧ r.ret = []) :=
  ⟨by decide, by decide, by decide, by decide,
    (TailNChunk_error_discards 2 (fun _ => .ok (shortReadAt [97, 10, 98, 10, 99, 10, 100] 3))
      "f" 5 false).2 (by decide) (by decide)
      (shortReadAt [97, 10, 98, 10, 99, 10, 100] 3) 7 rfl rfl⟩

/-- C16, as the code behaves: for every content, chunk size `c ≥ 1` and
`numLines ≥ 1`, the loop of `TailN` ends with at most `numLines` accumulated
lines, so the final truncation removes nothing: the result is the accumulated
list, preceded by the bytes left at the start of the file when that applies. -/
theorem TailN_no_truncation (c : Nat) (hc : 1 ≤ c) (content : Bytes) (path : String)
    (numLines : Int) (hn : 1 ≤ numLines) (skip : Bool) :
    ∃ s',
      tailLoop (regularFile content) numLines skip (content.length + 1)
        { buffer := [], lines := [], remaining := content.length, chunkSize := c,
          ops := [IOCall.open path, IOCall.stat] } = some (s', none) ∧
      (s'.lines.length : Int) ≤ numLines ∧
      finishLines numLines skip s'
        = (if s'.remaining = 0 ∧ 0 < s'.buffer.length ∧ (s'.lines.length : Int) < numLines
            then s'.buffer :: s'.lines else s'.lines) ∧
      TailNChunk c (fileSystemOf content) path numLines skip
        = some ⟨finishLines numLines skip s', none, s'.ops ++ [IOCall.close]⟩ := by
  have hinv : LoopInv content numLines skip
      { buffer := [], lines := [], remaining := content.length, chunkSize := c,
        ops := [IOCall.open path, IOCall.stat] } :=
    ⟨le_refl _, by simp [firstSeg], by simp [candidates, tailSegs, keepLines],
      by simp only [List.length_nil]; omega, hc⟩
  obtain ⟨s', hs', _⟩ :=
    tailLoop_regular content numLines skip (content.length + 1) _ hinv (Nat.lt_succ_self _)
  have hle : (s'.lines.length : Int) ≤ numLines :=
    tailLoop_lines_le (regularFile content) numLines skip _ _ s' none
      (by simp only [List.length_nil]; omega) hs'
  refine ⟨s', hs', hle, ?_, ?_⟩
  · unfold finishLines
    by_cases hcond : s'.remaining = 0 ∧ 0 < s'.buffer.length ∧ (s'.lines.length : Int) < numLines
    · have hkeep : (!(skip && s'.buffer.length == 0)) = true := by
        have : (s'.buffer.length == 0) = false := by
          rw [beq_eq_false_iff_ne]; omega
        simp [this]
      simp only [hcond, and_self, if_true, hkeep]
      rw [if_neg]
      simp only [List.length_cons]
      omega
    · simp only [hcond, if_false]
      rw [if_neg]
      omega
  · exact TailNChunk_of_loop c (fileSystemOf content) path numLines skip hn
      (regularFile content) content.length rfl rfl s' none hs'

/-- Witness of C16 as amended: content `"a\nb\nc\nd"`, whose single chunk
holds several short lines, with `numLines = 2`: the loop ends with exactly the
two lines `["c", "d"]`. -/
theorem TailN_no_truncation_witness :
    (1 ≤ 122) ∧ ((1 : Int) ≤ 2) ∧
    (tailLoop (regularFile [97, 10, 98, 10, 99, 10, 100]) 2 false (7 + 1)
        { buffer := [], lines := [], remaining := 7, chunkSize := 122,
          ops := [IOCall.open "f", IOCall.stat] }).map (fun p => p.1.lines)
      = some [[99], [100]] ∧
    ∃ s',
      tailLoop (regularFile [97, 10, 98, 10, 99, 10, 100]) 2 false (7 + 1)
        { buffer := [], lines := [], remaining := 7, chunkSize := 122,
          ops := [IOCall.open "f", IOCall.stat] } = some (s', none) ∧
      (s'.lines.length : Int) ≤ 2 :=
  ⟨by decide, by decide, by decide,
    match TailN_no_truncation 122 (by decide) [97, 10, 98, 10, 99, 10, 100] "f" 2 (by decide)
      false with
    | ⟨s', h, hle, _, _⟩ => ⟨s', h, hle⟩⟩

/-- C16 fails as stated: on no file, for no `numLines ≥ 1`, chunk size or
fuel does the loop of `TailN` end with more than `numLines` accumulated
lines. -/
theorem TailN_no_truncation_counterexample :
    ¬ ∃ (file : FileHandle) (numLines : Int) (skip : Bool) (fuel fileSize c : Nat)
        (ops0 : List IOCall) (s' : LoopState) (e : Option Error),
      1 ≤ numLines ∧
      tailLoop file numLines skip fuel
        { buffer := [], lines := [], remaining := fileSize, chunkSize := c, ops := ops0 }
        = some (s', e) ∧
      numLines < (s'.lines.length : Int) := by
  rintro ⟨file, numLines, skip, fuel, fileSize, c, ops0, s', e, hn, hloop, hgt⟩
  have := tailLoop_lines_le file numLines skip fuel _ s' e
    (by simp only [List.length_nil]; omega) hloop
  omega

end Mfile
